import Mathlib

/-!
# Multiprocessor scheduling simulator (`Term_Project_RS/mps.c`)

A shallow embedding of the scheduling core of `mps.c`:

* the `Burst` record and the hand-linked `Queue` (head / tail pointers and the
  `next` field of every burst) live in an explicit heap, a list of bursts in
  which a pointer is an index and `NULL` is `none`;
* `enqueue`, `dequeue`, `find_shortest_job`, `queue_length`, `is_queue_empty`
  are transcribed statement by statement; a dereference of `NULL` or of a
  dangling pointer, an out-of-bounds index into `mutex_queues` and the read of
  an uninitialised variable are undefined behaviour in C and make the
  embedded function return `none`;
* the body of the loading loop of `read_input_file` / `create_random_bursts`
  is `load_burst`, the body of the `while (true)` loop of `processor_thread`
  is `processor_iteration` (worker iterations are interleaved one at a time);
* loops over a linked list carry fuel `heap.length + 1`: a walk that visits
  more nodes than the heap holds has entered a cycle, on which the C loop
  does not terminate;
* `parse_arguments` is the `switch` over the options that `getopt_long`
  returns, on the variables the scheduling core reads (`n_processors`, `sap`,
  `qs`, `alg`, `Q`); the two `sscanf` calls are spelt out by `scan_string`
  and `scan_int`, and the arrays `char qs[3]`, `char alg[4]` hold what these
  store (`Config.Stored`).

Conventions on machine integers.  The `int` fields read from the input are
mathematical integers inside the 32-bit range; `finish_time - arrival_time`
is wrapped to 32 bits (`toInt32`), `pid % n_processors` is C's truncated
remainder (`Int.tmod`).  Counters that count heap nodes (`queue_length`,
`completed_processes`) are bounded by the number of allocated bursts and are
kept exact.  `malloc` is assumed to succeed and returns the next free index.
-/

namespace Mps

/-! ## Constants -/

def MAX_PROCESSORS : Nat := 10

def INT_MAX : Int := 2147483647

def INT_MIN : Int := -2147483648

/-- Two's complement reduction of an integer to the range of a 32-bit `int`. -/
def toInt32 (x : Int) : Int := (x + 2147483648) % 4294967296 - 2147483648

/-! ## Data structures -/

/-- A pointer to a burst: `none` is `NULL`, `some a` is the heap cell `a`. -/
abbrev Ptr := Option Nat

/-- The record `struct burst`. -/
structure Burst where
  pid : Int
  burst_length : Int
  arrival_time : Int
  remaining_time : Int
  finish_time : Int
  turnaround_time : Int
  cpu_id : Int
  next : Ptr
deriving DecidableEq

/-- The record `Queue`: pointers to the first and to the last burst. -/
structure Queue where
  head : Ptr
  tail : Ptr
deriving DecidableEq

/-- The memory holding the bursts; cell `a` is the `a`-th entry. -/
abbrev Heap := List Burst

/-- Write through a pointer: `p->field = ...`, given as an update of the
record.  Writing through a dangling pointer is undefined. -/
def store (h : Heap) (p : Nat) (f : Burst → Burst) : Option Heap :=
  match h[p]? with
  | none => none
  | some b => some (h.set p (f b))

/-- The global variables read from the command line. -/
structure Config where
  n_processors : Int
  sap : Char
  qs : String
  alg : String
  Q : Int
deriving DecidableEq

/-- The global mutable state: the heap, the array `mutex_queues` (the locks
carry no data), `finished_bursts` and `completed_processes`. -/
structure State where
  heap : Heap
  mutex_queues : List Queue
  finished_bursts : Queue
  completed_processes : Int
deriving DecidableEq

/-- Indexing of a C array by an `int`; outside the array it is undefined. -/
def index? {α : Type} (l : List α) (i : Int) : Option α :=
  if 0 ≤ i then l[i.toNat]? else none

/-! ## Queue operations -/

/-- The function `void enqueue(Queue *queue, Burst *burst)`. -/
def enqueue (h : Heap) (queue : Queue) (burst : Nat) : Option (Heap × Queue) :=
  match queue.tail with
  | none =>
    (store h burst (fun b => { b with next := none })).map
      (fun h1 => (h1, { head := some burst, tail := some burst }))
  | some t =>
    (store h t (fun b => { b with next := some burst })).bind fun h1 =>
    (store h1 burst (fun b => { b with next := none })).map
      (fun h2 => (h2, { head := queue.head, tail := some burst }))

/-- The function `Burst *dequeue(Queue *queue)`; the heap is only read. -/
def dequeue (h : Heap) (queue : Queue) : Option (Ptr × Queue) :=
  match queue.head with
  | none => some (none, queue)
  | some a =>
    match h[a]? with
    | none => none
    | some b =>
      some (some a, if b.next = none then { head := none, tail := none }
                    else { head := b.next, tail := queue.tail })

/-- The function `Burst *peek(Queue *queue)`. -/
def peek (queue : Queue) : Ptr := queue.head

/-- The function `bool is_queue_empty(Queue *queue)`. -/
def is_queue_empty (queue : Queue) : Bool := queue.head == none

/-- The `while (current != NULL)` loop of `queue_length`. -/
def queue_length_loop (h : Heap) : Nat → Ptr → Nat → Option Nat
  | 0, _, _ => none
  | _ + 1, none, length => some length
  | fuel + 1, some a, length =>
    match h[a]? with
    | none => none
    | some b => queue_length_loop h fuel b.next (length + 1)

/-- The function `int queue_length(Queue *queue)`. -/
def queue_length (h : Heap) (queue : Queue) : Option Nat :=
  queue_length_loop h (h.length + 1) queue.head 0

/-- The `for` loop of `find_shortest_job`; the arguments after the heap are
`burst`, `prev`, `shortest_prev`, `shortest` and `min_remaining_time`, the
result is `(shortest, shortest_prev)`. -/
def find_shortest_loop (h : Heap) : Nat → Ptr → Ptr → Ptr → Ptr → Int → Option (Ptr × Ptr)
  | 0, _, _, _, _, _ => none
  | _ + 1, none, _, shortest_prev, shortest, _ => some (shortest, shortest_prev)
  | fuel + 1, some a, prev, shortest_prev, shortest, min_remaining_time =>
    match h[a]? with
    | none => none
    | some b =>
      if b.remaining_time < min_remaining_time then
        find_shortest_loop h fuel b.next (some a) prev (some a) b.remaining_time
      else
        find_shortest_loop h fuel b.next (some a) shortest_prev shortest min_remaining_time

/-- The function `Burst *find_shortest_job(Queue *queue)`.  When the scan selects nothing
`shortest` is `NULL` and `shortest->next` is undefined. -/
def find_shortest_job (h : Heap) (queue : Queue) : Option (Ptr × Heap × Queue) :=
  (find_shortest_loop h (h.length + 1) queue.head none none none INT_MAX).bind fun r =>
  match r.1 with
  | none => none
  | some s =>
    match h[s]? with
    | none => none
    | some sb =>
      let unlinked : Option (Heap × Queue) :=
        match r.2 with
        | some sp =>
          (store h sp (fun b => { b with next := sb.next })).map (fun h1 => (h1, queue))
        | none => some (h, { head := sb.next, tail := queue.tail })
      unlinked.map fun hq =>
        (some s, hq.1, if some s = hq.2.tail then { head := hq.2.head, tail := r.2 } else hq.2)

/-! ## Loading and assignment -/

/-- The function `void initialize_simulation()`. -/
def initialize_simulation : State :=
  { heap := []
    mutex_queues := List.replicate MAX_PROCESSORS { head := none, tail := none }
    finished_bursts := { head := none, tail := none }
    completed_processes := 0 }

/-- The burst built after `malloc` in the loading loops. -/
def new_burst (pid burst_length arrival_time : Int) : Burst :=
  { pid := pid, burst_length := burst_length, arrival_time := arrival_time
    remaining_time := burst_length, finish_time := 0, turnaround_time := 0
    cpu_id := -1, next := none }

/-- The loop `for (int i = 1; i < n_processors; i++)` of the "LM" branch; the
first argument counts the iterations left, then `i`, `min_queue_length` and
`target_queue`. -/
def least_loaded_loop (h : Heap) (mq : List Queue) : Nat → Nat → Nat → Nat → Option Nat
  | 0, _, _, target_queue => some target_queue
  | k + 1, i, min_queue_length, target_queue =>
    match mq[i]? with
    | none => none
    | some q =>
      match queue_length h q with
      | none => none
      | some current_queue_length =>
        if current_queue_length < min_queue_length then
          least_loaded_loop h mq k (i + 1) current_queue_length i
        else
          least_loaded_loop h mq k (i + 1) min_queue_length target_queue

/-- The value of `target_queue` under `sap == 'M'`.  With a sub-policy other
than "RM" and "LM" the variable is read uninitialised. -/
def target_queue (cfg : Config) (h : Heap) (mq : List Queue) (pid : Int) : Option Int :=
  if cfg.qs = "RM" then
    if cfg.n_processors = 0 ∨ (pid = INT_MIN ∧ cfg.n_processors = -1) then none
    else some (Int.tmod pid cfg.n_processors)
  else if cfg.qs = "LM" then
    match mq[0]? with
    | none => none
    | some q0 =>
      match queue_length h q0 with
      | none => none
      | some len0 =>
        (least_loaded_loop h mq (cfg.n_processors - 1).toNat 1 len0 0).map Int.ofNat
  else none

/-- The statement `enqueue(&mutex_queues[i].queue, burst)`. -/
def enqueue_at (st : State) (h : Heap) (i : Int) (burst : Nat) : Option State :=
  match index? st.mutex_queues i with
  | none => none
  | some q =>
    (enqueue h q burst).map fun r =>
      { st with heap := r.1, mutex_queues := st.mutex_queues.set i.toNat r.2 }

/-- One iteration of the loading loop shared by `read_input_file` and
`create_random_bursts`: allocate the burst, fill it in, assign it. -/
def load_burst (cfg : Config) (st : State) (pid burst_length arrival_time : Int) :
    Option State :=
  let burst := st.heap.length
  let h := st.heap ++ [new_burst pid burst_length arrival_time]
  if cfg.sap = 'S' then
    enqueue_at st h 0 burst
  else if cfg.sap = 'M' then
    (target_queue cfg h st.mutex_queues pid).bind fun t => enqueue_at st h t burst
  else
    some { st with heap := h }

/-- The function `void read_input_file()` on the records `pid burst_length arrival_time`
that `fscanf` parsed. -/
def read_input_file (cfg : Config) : State → List (Int × Int × Int) → Option State
  | st, [] => some st
  | st, r :: rest =>
    match load_burst cfg st r.1 r.2.1 r.2.2 with
    | none => none
    | some st1 => read_input_file cfg st1 rest

/-- The function `void create_random_bursts()`; the list holds, for every `i < T`, the two
values drawn for `burst_length` and `arrival_time`, and `pid = i`. -/
def create_random_bursts (cfg : Config) : State → Int → List (Int × Int) → Option State
  | st, _, [] => some st
  | st, i, r :: rest =>
    match load_burst cfg st i r.1 r.2 with
    | none => none
    | some st1 => create_random_bursts cfg st1 (i + 1) rest

/-! ## The worker -/

/-- The request `req` handed to `nanosleep`: `(tv_sec, tv_nsec)`. -/
def sleep_request (remaining_time : Int) : Int × Int :=
  (Int.tdiv remaining_time 1000, Int.tmod remaining_time 1000 * 1000000)

/-- The selection at the top of the loop body of `processor_thread`. -/
def select_burst (cfg : Config) (h : Heap) (queue : Queue) : Option (Ptr × Heap × Queue) :=
  if !is_queue_empty queue then
    if cfg.alg = "RR" then
      (dequeue h queue).map fun r => (r.1, h, r.2)
    else if cfg.alg = "SJF" then
      find_shortest_job h queue
    else if cfg.alg = "FCFS" then
      (dequeue h queue).map fun r => (r.1, h, r.2)
    else some (none, h, queue)
  else some (none, h, queue)

/-- The queue `&mutex_queues[cpu_id]` a worker serves. -/
def worker_queue (st : State) (cpu_id : Nat) : Option Queue := st.mutex_queues[cpu_id]?

/-- One pass through the body of `while (true)` in `processor_thread`, for the
worker `cpu_id`; `elapsed` is the value of
`get_wall_clock_time() - simulation_start_time` converted to `int`. -/
def processor_iteration (cfg : Config) (cpu_id : Nat) (elapsed : Int) (st : State) :
    Option State :=
  match worker_queue st cpu_id with
  | none => none
  | some mq =>
    (select_burst cfg st.heap mq).bind fun r =>
    let mqs := st.mutex_queues.set cpu_id r.2.2
    match r.1 with
    | none => some { st with heap := r.2.1, mutex_queues := mqs }
    | some burst =>
      (store r.2.1 burst (fun b => { b with cpu_id := cpu_id })).bind fun h1 =>
      (store h1 burst (fun b => { b with finish_time := elapsed })).bind fun h2 =>
      (store h2 burst (fun b =>
        { b with turnaround_time := toInt32 (b.finish_time - b.arrival_time) })).bind fun h3 =>
      (enqueue h3 st.finished_bursts burst).map fun e =>
        { heap := e.1, mutex_queues := mqs, finished_bursts := e.2
          completed_processes := st.completed_processes + 1 }

/-! ## The command line -/

/-- The C function `isspace` in the "C" locale. -/
def isspace (c : Char) : Bool := c.toNat = 32 || (9 ≤ c.toNat && c.toNat ≤ 13)

/-- The directive `%Ns` of `sscanf` with `N = width`: white space is skipped,
then at most `width` characters that are not white space are taken. The result
is the token and the input left, `none` when the input ends before a token. -/
def scan_string (width : Nat) (input : List Char) : Option (List Char × List Char) :=
  let rest := input.dropWhile isspace
  let token := (rest.takeWhile fun c => !isspace c).take width
  if token = [] then none else some (token, rest.drop token.length)

/-- A non-empty run of decimal digits and its value. -/
def scan_digits (input : List Char) : Option Nat :=
  let ds := input.takeWhile Char.isDigit
  if ds = [] then none else some (ds.foldl (fun n c => 10 * n + (c.toNat - 48)) 0)

/-- The directive `%d` of `sscanf`: white space, an optional sign, digits; the
value is stored in an `int`. -/
def scan_int (input : List Char) : Option Int :=
  let rest := input.dropWhile isspace
  if rest.head? = some '-' then (scan_digits rest.tail).map fun n => toInt32 (-(n : Int))
  else if rest.head? = some '+' then (scan_digits rest.tail).map fun n => toInt32 n
  else (scan_digits rest).map fun n => toInt32 n

/-- The C function `atoi`: `0` when no number is found. -/
def atoi (s : String) : Int := (scan_int s.toList).getD 0

/-- The initial values of the global variables. -/
def default_config : Config :=
  { n_processors := 2, sap := 'M', qs := "RM", alg := "RR", Q := 20 }

/-- The `switch (opt)` of `parse_arguments` for the option letter `opt` with
argument `optarg`, on the variables of `Config`; `none` is the `default:`
case, which prints the usage line and calls `exit(1)`. -/
def parse_option (cfg : Config) (opt : Char) (optarg : String) : Option Config :=
  if opt = 'n' then some { cfg with n_processors := atoi optarg }
  else if opt = 'a' then
    match optarg.toList with
    | [] => some cfg
    | c :: rest =>
      match scan_string 2 rest with
      | none => some { cfg with sap := c }
      | some r => some { cfg with sap := c, qs := String.mk r.1 }
  else if opt = 's' then
    match scan_string 3 optarg.toList with
    | none => some cfg
    | some r =>
      match scan_int r.2 with
      | none => some { cfg with alg := String.mk r.1 }
      | some q => some { cfg with alg := String.mk r.1, Q := q }
  else if opt = 'i' ∨ opt = 'm' ∨ opt = 'o' ∨ opt = 'r' then some cfg
  else none

/-- The function `void parse_arguments(int argc, char *argv[])` on the options
in the order `getopt_long` returns them, each with its `optarg`. -/
def parse_arguments (cfg : Config) : List (Char × String) → Option Config
  | [] => some cfg
  | o :: rest => (parse_option cfg o.1 o.2).bind fun c => parse_arguments c rest

/-! ## Abstraction: the cells of a linked list -/

/-- The segment `Seg h p l r`: starting at the pointer `p` and following `next`, the cells
visited are exactly `l`, in this order, and the walk arrives at `r`. -/
def Seg (h : Heap) : Ptr → List Nat → Ptr → Prop
  | p, [], r => p = r
  | p, a :: l, r => p = some a ∧ ∃ b, h[a]? = some b ∧ Seg h b.next l r

/-- The relation `IsQueue h q l`: the queue `q` holds the cells `l` from head to `NULL`,
and `tail` points to the last of them (`NULL` when there is none). -/
def IsQueue (h : Heap) (q : Queue) (l : List Nat) : Prop :=
  Seg h q.head l none ∧ q.tail = l.getLast?

/-- The empty queue of `initialize_simulation`. -/
def empty_queue : Queue := { head := none, tail := none }

/-- The abstraction `Abs st qs fin`: the state is well formed and holds the cells `qs[i]` in
`mutex_queues[i]` and `fin` in `finished_bursts`; no cell occurs twice. -/
def Abs (st : State) (qs : List (List Nat)) (fin : List Nat) : Prop :=
  st.mutex_queues.length = MAX_PROCESSORS ∧ qs.length = MAX_PROCESSORS ∧
  (∀ i, i < MAX_PROCESSORS →
    IsQueue st.heap (st.mutex_queues.getD i empty_queue) (qs.getD i [])) ∧
  IsQueue st.heap st.finished_bursts fin ∧
  (qs.flatten ++ fin).Nodup

/-- The states reached from `st` by worker iterations taken one at a time, by
workers `cpu_id < n_processors` at arbitrary clock readings. -/
inductive Reachable (cfg : Config) (st : State) : State → Prop
  | refl : Reachable cfg st st
  | step {s1 s2 : State} (cpu_id : Nat) (elapsed : Int) :
      Reachable cfg st s1 → (cpu_id : Int) < cfg.n_processors →
      processor_iteration cfg cpu_id elapsed s1 = some s2 → Reachable cfg st s2

/-- The configurations for which the loading loop has an assignment branch. -/
def Recognised (cfg : Config) : Prop :=
  cfg.sap = 'S' ∨ (cfg.sap = 'M' ∧ (cfg.qs = "RM" ∨ cfg.qs = "LM"))

instance Seg.decide (h : Heap) : ∀ (l : List Nat) (p r : Ptr), Decidable (Seg h p l r)
  | [], p, r => inferInstanceAs (Decidable (p = r))
  | a :: l, p, r =>
    match hb : h[a]? with
    | none => isFalse (by
        rintro ⟨_, b, hb2, _⟩
        rw [hb] at hb2
        cases hb2)
    | some b =>
      match Seg.decide h l b.next r with
      | isTrue hs =>
        if hp : p = some a then isTrue ⟨hp, b, hb, hs⟩
        else isFalse (fun hh => hp hh.1)
      | isFalse hs => isFalse (by
          rintro ⟨_, b2, hb2, hs2⟩
          rw [hb] at hb2
          cases hb2
          exact hs hs2)

instance (h : Heap) (q : Queue) (l : List Nat) : Decidable (IsQueue h q l) :=
  inferInstanceAs (Decidable (_ ∧ _))

instance (st : State) (qs : List (List Nat)) (fin : List Nat) : Decidable (Abs st qs fin) :=
  inferInstanceAs (Decidable (_ ∧ _ ∧ _ ∧ _ ∧ _))

instance (cfg : Config) : Decidable (Recognised cfg) :=
  inferInstanceAs (Decidable (_ ∨ _))

/-- The field `remaining_time` of the cell `a` (0 for a dangling pointer). -/
def remaining_time_of (h : Heap) (a : Nat) : Int :=
  match h[a]? with
  | some b => b.remaining_time
  | none => 0

/-- The fields of a burst other than the link `next`. -/
def Burst.data (b : Burst) : Burst := { b with next := none }

/-! ## Call sequences and sample inputs used in the statements -/

/-- A sequence of `enqueue` calls on one queue, one per cell of the list. -/
def enqueue_all : Heap → Queue → List Nat → Option (Heap × Queue)
  | h, q, [] => some (h, q)
  | h, q, b :: bs => (enqueue h q b).bind fun r => enqueue_all r.1 r.2 bs

/-- A sequence of `k` calls of `dequeue` on one queue: the pointers returned,
in the order of the calls, and the queue left. -/
def dequeue_all (h : Heap) : Nat → Queue → Option (List Ptr × Queue)
  | 0, q => some ([], q)
  | k + 1, q =>
    (dequeue h q).bind fun r => (dequeue_all h k r.2).map fun s => (r.1 :: s.1, s.2)

/-- A sequence of `k` calls of `find_shortest_job` on one queue: the pointers
returned, in the order of the calls. -/
def find_shortest_all : Nat → Heap → Queue → Option (List Ptr)
  | 0, _, _ => some []
  | k + 1, h, q =>
    (find_shortest_job h q).bind fun r => (find_shortest_all k r.2.1 r.2.2).map fun s => r.1 :: s

/-- The configuration `-n n -a "sap qs" -s "alg 20"`. -/
def config (n : Int) (sap : Char) (qs alg : String) : Config :=
  { n_processors := n, sap := sap, qs := qs, alg := alg, Q := 20 }

/-- A well-formed sample state: two bursts, the first in queue 0 and the
second in queue 1. -/
def sample_state : State :=
  { heap := [new_burst 0 100 0, new_burst 1 50 0]
    mutex_queues :=
      [{ head := some 0, tail := some 0 }, { head := some 1, tail := some 1 },
       empty_queue, empty_queue, empty_queue, empty_queue, empty_queue, empty_queue,
       empty_queue, empty_queue]
    finished_bursts := empty_queue
    completed_processes := 0 }

/-- The cells of the queues of `sample_state`. -/
def sample_queues : List (List Nat) := [[0], [1], [], [], [], [], [], [], [], []]

/-- The two service lengths of a burst: `(burst_length, remaining_time)`. -/
def Burst.lengths (b : Burst) : Int × Int := (b.burst_length, b.remaining_time)

/-- The records that `create_random_bursts` loads: the identifiers count up
from `i`, the two lengths are the values drawn. -/
def random_records : Int → List (Int × Int) → List (Int × Int × Int)
  | _, [] => []
  | i, r :: rest => (i, r.1, r.2) :: random_records (i + 1) rest

/-- What the arrays `char qs[3]` and `char alg[4]` can hold: a string of at
most two, respectively three, characters before the terminating zero. -/
def Config.Stored (cfg : Config) : Prop := cfg.qs.length ≤ 2 ∧ cfg.alg.length ≤ 3

instance (cfg : Config) : Decidable cfg.Stored := by
  unfold Config.Stored
  infer_instance

/-- The algorithm names the worker compares `alg` with. -/
def Config.Known (cfg : Config) : Prop :=
  cfg.alg = "FCFS" ∨ cfg.alg = "RR" ∨ cfg.alg = "SJF"

instance (cfg : Config) : Decidable cfg.Known := by
  unfold Config.Known
  infer_instance

theorem store_eq_some {h h' : Heap} {p : Nat} {f : Burst → Burst} :
    store h p f = some h' ↔ ∃ b, h[p]? = some b ∧ h' = h.set p (f b) := by
  unfold store
  cases hb : h[p]? with
  | none => simp
  | some b => simp [eq_comm]

theorem store_get {h h' : Heap} {p : Nat} {f : Burst → Burst} (hs : store h p f = some h')
    (a : Nat) : h'[a]? = if a = p then (h[p]?).map f else h[a]? := by
  obtain ⟨b, hb, rfl⟩ := store_eq_some.1 hs
  have hp : p < h.length := (List.getElem?_eq_some.1 hb).1
  by_cases hap : a = p
  · subst hap
    simp [hb, hp]
  · have hpa : p ≠ a := fun e => hap e.symm
    simp [hap, List.getElem?_set_ne hpa]

theorem store_length {h h' : Heap} {p : Nat} {f : Burst → Burst}
    (hs : store h p f = some h') : h'.length = h.length := by
  obtain ⟨b, _, rfl⟩ := store_eq_some.1 hs
  simp

theorem store_defined {h : Heap} {p : Nat} (f : Burst → Burst) (hp : p < h.length) :
    ∃ h', store h p f = some h' := by
  refine ⟨h.set p (f h[p]), store_eq_some.2 ⟨h[p], ?_, rfl⟩⟩
  simp [hp]

/-- A store that keeps the value of a projection `g` keeps it in every cell. -/
theorem store_proj {α : Type} (g : Burst → α) {h h' : Heap} {p : Nat} {f : Burst → Burst}
    (hs : store h p f = some h') (hg : ∀ b, g (f b) = g b) (a : Nat) :
    (h'[a]?).map g = (h[a]?).map g := by
  rw [store_get hs a]
  by_cases hap : a = p
  · subst hap
    cases hb : h[a]? <;> simp [hg]
  · simp [hap]

theorem seg_nil {h : Heap} {p r : Ptr} : Seg h p [] r ↔ p = r := Iff.rfl

theorem seg_cons {h : Heap} {p r : Ptr} {a : Nat} {l : List Nat} :
    Seg h p (a :: l) r ↔ p = some a ∧ ∃ b, h[a]? = some b ∧ Seg h b.next l r := Iff.rfl

theorem seg_append {h : Heap} {l2 : List Nat} {r : Ptr} :
    ∀ {l1 : List Nat} {p : Ptr},
      Seg h p (l1 ++ l2) r ↔ ∃ m, Seg h p l1 m ∧ Seg h m l2 r
  | [], p => by simp [seg_nil]
  | a :: l1, p => by
    simp only [List.cons_append, seg_cons, @seg_append h l2 r l1]
    constructor
    · rintro ⟨hp, b, hb, m, h1, h2⟩
      exact ⟨m, ⟨hp, b, hb, h1⟩, h2⟩
    · rintro ⟨m, ⟨hp, b, hb, h1⟩, h2⟩
      exact ⟨hp, b, hb, m, h1, h2⟩

theorem seg_lt {h : Heap} {r : Ptr} :
    ∀ {l : List Nat} {p : Ptr}, Seg h p l r → ∀ a ∈ l, a < h.length
  | [], _, _, a, ha => by simp at ha
  | x :: l, p, hs, a, ha => by
    obtain ⟨_, b, hb, hl⟩ := seg_cons.1 hs
    rcases List.mem_cons.1 ha with rfl | ha
    · exact (List.getElem?_eq_some.1 hb).1
    · exact seg_lt hl a ha

/-- A segment survives every change of the heap that keeps the `next` field
of its cells. -/
theorem seg_congr {h h' : Heap} {r : Ptr} :
    ∀ {l : List Nat} {p : Ptr},
      (∀ a ∈ l, ∀ b, h[a]? = some b → ∃ b', h'[a]? = some b' ∧ b'.next = b.next) →
      Seg h p l r → Seg h' p l r
  | [], _, _, hs => hs
  | x :: l, p, hn, hs => by
    obtain ⟨hp, b, hb, hl⟩ := seg_cons.1 hs
    obtain ⟨b', hb', hnext⟩ := hn x (List.mem_cons_self x l) b hb
    refine seg_cons.2 ⟨hp, b', hb', ?_⟩
    rw [hnext]
    exact seg_congr (fun a ha => hn a (List.mem_cons_of_mem x ha)) hl

theorem chain_det {h : Heap} :
    ∀ {l1 l2 : List Nat} {p : Ptr}, Seg h p l1 none → Seg h p l2 none → l1 = l2
  | [], [], _, _, _ => rfl
  | [], _ :: _, p, h1, h2 => by
    have e1 : p = none := h1
    have e2 := (seg_cons.1 h2).1
    rw [e1] at e2
    cases e2
  | _ :: _, [], p, h1, h2 => by
    have e2 : p = none := h2
    have e1 := (seg_cons.1 h1).1
    rw [e2] at e1
    cases e1
  | a :: l1, c :: l2, p, h1, h2 => by
    obtain ⟨hp1, b1, hb1, hl1⟩ := seg_cons.1 h1
    obtain ⟨hp2, b2, hb2, hl2⟩ := seg_cons.1 h2
    rw [hp1] at hp2
    cases hp2
    rw [hb1] at hb2
    cases hb2
    rw [chain_det hl1 hl2]

theorem chain_suffix {h : Heap} {l1 l2 : List Nat} {p : Ptr} {a : Nat}
    (hs : Seg h p (l1 ++ a :: l2) none) : Seg h (some a) (a :: l2) none := by
  obtain ⟨m, _, h2⟩ := seg_append.1 hs
  obtain ⟨hm, b, hb, hl⟩ := seg_cons.1 h2
  exact seg_cons.2 ⟨rfl, b, hb, hl⟩

theorem chain_nodup {h : Heap} :
    ∀ {l : List Nat} {p : Ptr}, Seg h p l none → l.Nodup
  | [], _, _ => List.nodup_nil
  | a :: l, p, hs => by
    obtain ⟨hp, b, hb, hl⟩ := seg_cons.1 hs
    refine List.nodup_cons.2 ⟨?_, chain_nodup hl⟩
    intro ha
    obtain ⟨s, t, rfl⟩ := List.append_of_mem ha
    have h1 : Seg h (some a) (a :: t) none := chain_suffix hl
    have h2 : Seg h (some a) (a :: (s ++ a :: t)) none := seg_cons.2 ⟨rfl, b, hb, hl⟩
    have e := chain_det h1 h2
    have := congrArg List.length e
    simp at this
    omega

theorem chain_length_le {h : Heap} {l : List Nat} {p : Ptr} (hs : Seg h p l none) :
    l.length ≤ h.length := by
  have hsub : l ⊆ List.range h.length := fun a ha => List.mem_range.2 (seg_lt hs a ha)
  have := (List.subperm_of_subset (chain_nodup hs) hsub).length_le
  simpa using this

/-- In a list without repetition the last cell is `x` only at the end. -/
theorem getLast?_middle {l1 l2 : List Nat} {x : Nat} (hn : (l1 ++ x :: l2).Nodup) :
    (l1 ++ x :: l2).getLast? = some x ↔ l2 = [] := by
  constructor
  · intro hl
    rcases List.eq_nil_or_concat l2 with h2 | ⟨l3, y, rfl⟩
    · exact h2
    · exfalso
      rw [List.concat_eq_append] at hl hn
      have e : l1 ++ x :: (l3 ++ [y]) = (l1 ++ x :: l3) ++ [y] := by simp
      rw [e, List.getLast?_concat] at hl
      cases hl
      have hx : x ∉ l3 ++ [x] := by
        have := List.nodup_append.1 hn
        exact (List.nodup_cons.1 this.2.1).1
      exact hx (by simp)
  · rintro rfl
    simp

/-- The last cell of a list with a cell removed from the middle. -/
theorem getLast?_remove {l1 l2 : List Nat} {x : Nat} (hne : l2 ≠ []) :
    (l1 ++ l2).getLast? = (l1 ++ x :: l2).getLast? := by
  rcases List.eq_nil_or_concat l2 with h2 | ⟨l3, y, rfl⟩
  · exact absurd h2 hne
  · rw [List.concat_eq_append]
    have e1 : l1 ++ (l3 ++ [y]) = (l1 ++ l3) ++ [y] := by simp
    have e2 : l1 ++ x :: (l3 ++ [y]) = (l1 ++ x :: l3) ++ [y] := by simp
    rw [e1, e2, List.getLast?_concat, List.getLast?_concat]

/-! ## The queue operations on well-formed queues -/

theorem isQueue_empty (h : Heap) : IsQueue h empty_queue [] := ⟨rfl, rfl⟩

theorem isQueue_nil_iff {h : Heap} {q : Queue} : IsQueue h q [] ↔ q = empty_queue := by
  cases q with
  | mk hd tl =>
    constructor
    · rintro ⟨h1, h2⟩
      have e1 : hd = none := h1
      have e2 : tl = none := h2
      subst e1 e2
      rfl
    · intro e
      rw [e]
      exact isQueue_empty h

theorem isQueue_head_cons {h : Heap} {q : Queue} {a : Nat} {l : List Nat}
    (hq : IsQueue h q (a :: l)) : q.head = some a := (seg_cons.1 hq.1).1

theorem is_queue_empty_iff {h : Heap} {q : Queue} {l : List Nat} (hq : IsQueue h q l) :
    is_queue_empty q = true ↔ l = [] := by
  cases l with
  | nil =>
    have e : q.head = none := hq.1
    simp [is_queue_empty, e]
  | cons a l => simp [is_queue_empty, isQueue_head_cons hq]

theorem queue_length_loop_spec {h : Heap} :
    ∀ {l : List Nat} {p : Ptr} (fuel n : Nat), Seg h p l none → l.length < fuel →
      queue_length_loop h fuel p n = some (n + l.length)
  | [], p, fuel, n, hs, hf => by
    have e : p = none := hs
    subst e
    cases fuel with
    | zero => simp at hf
    | succ k => simp [queue_length_loop]
  | a :: l, p, fuel, n, hs, hf => by
    obtain ⟨hp, b, hb, hl⟩ := seg_cons.1 hs
    subst hp
    cases fuel with
    | zero => simp at hf
    | succ k =>
      have hk : l.length < k := by simpa using hf
      simp only [queue_length_loop, hb]
      rw [queue_length_loop_spec k (n + 1) hl hk]
      simp only [List.length_cons]
      congr 1
      omega

/-- On a well-formed queue `queue_length` returns the number of its cells. -/
theorem queue_length_spec {h : Heap} {q : Queue} {l : List Nat} (hq : IsQueue h q l) :
    queue_length h q = some l.length := by
  have hle := chain_length_le hq.1
  have := queue_length_loop_spec (h := h) (h.length + 1) 0 hq.1 (by omega)
  simpa [queue_length] using this

/-- What `enqueue` does to the heap and to the tail pointer, whatever the
queue: only `next` fields change, and only in the old tail and in the burst. -/
theorem enqueue_effect {h h' : Heap} {q q' : Queue} {b : Nat}
    (he : enqueue h q b = some (h', q')) :
    h'.length = h.length ∧ q'.tail = some b ∧
    (∀ a, a ≠ b → q.tail ≠ some a → h'[a]? = h[a]?) ∧
    (∀ {α : Type} (g : Burst → α), (∀ x n, g { x with next := n } = g x) →
      ∀ a : Nat, (h'[a]?).map g = (h[a]?).map g) := by
  unfold enqueue at he
  cases ht : q.tail with
  | none =>
    simp only [ht, Option.map_eq_some'] at he
    obtain ⟨h1, hs1, he⟩ := he
    cases he
    refine ⟨store_length hs1, rfl, ?_, ?_⟩
    · intro a hab _
      rw [store_get hs1 a, if_neg hab]
    · intro α g hg a
      exact store_proj g hs1 (fun x => hg x none) a
  | some t =>
    simp only [ht, Option.bind_eq_some, Option.map_eq_some'] at he
    obtain ⟨h1, hs1, h2, hs2, he⟩ := he
    cases he
    refine ⟨by rw [store_length hs2, store_length hs1], rfl, ?_, ?_⟩
    · intro a hab hat
      have hat2 : a ≠ t := fun e => hat (by rw [e])
      rw [store_get hs2 a, if_neg hab, store_get hs1 a, if_neg hat2]
    · intro α g hg a
      rw [store_proj g hs2 (fun x => hg x none) a, store_proj g hs1 (fun x => hg x (some b)) a]

/-- Appending a cell that is not in the queue: `enqueue` succeeds and the
queue holds the old cells followed by the new one. -/
theorem enqueue_spec {h : Heap} {q : Queue} {l : List Nat} {b : Nat}
    (hq : IsQueue h q l) (hb : b < h.length) (hbl : b ∉ l) :
    ∃ h' q', enqueue h q b = some (h', q') ∧ IsQueue h' q' (l ++ [b]) := by
  have hnd := chain_nodup hq.1
  rcases List.eq_nil_or_concat l with rfl | ⟨l0, t, rfl⟩
  · obtain ⟨h1, hs1⟩ := store_defined (fun x => { x with next := none }) hb
    have ht : q.tail = none := hq.2
    refine ⟨h1, { head := some b, tail := some b }, by simp [enqueue, ht, hs1], ?_, by simp⟩
    have hb1 := store_get hs1 b
    simp only [if_true] at hb1
    obtain ⟨x, hx⟩ : ∃ x, h[b]? = some x := ⟨h[b], by simp [hb]⟩
    rw [hx] at hb1
    exact seg_cons.2 ⟨rfl, _, hb1, rfl⟩
  · rw [List.concat_eq_append] at hq hbl hnd ⊢
    have ht : q.tail = some t := by
      have := hq.2
      rwa [List.getLast?_concat] at this
    have htlt : t < h.length := seg_lt hq.1 t (by simp)
    have htb : t ≠ b := fun e => hbl (by simp [e])
    obtain ⟨h1, hs1⟩ := store_defined (fun x => { x with next := some b }) htlt
    obtain ⟨h2, hs2⟩ := store_defined (h := h1) (fun x => { x with next := none })
      (by rw [store_length hs1]; exact hb)
    refine ⟨h2, { head := q.head, tail := some b }, by simp [enqueue, ht, hs1, hs2], ?_, by simp⟩
    obtain ⟨m, hs0, hst⟩ := seg_append.1 hq.1
    obtain ⟨hm, tb, htb2, _⟩ := seg_cons.1 hst
    subst hm
    have hget : ∀ a, a ≠ b → a ≠ t → h2[a]? = h[a]? := by
      intro a hab hat
      rw [store_get hs2 a, if_neg hab, store_get hs1 a, if_neg hat]
    show Seg h2 q.head (l0 ++ [t] ++ [b]) none
    rw [List.append_assoc]
    refine seg_append.2 ⟨some t, ?_, ?_⟩
    · refine seg_congr ?_ hs0
      intro a ha x hx
      have hat : a ≠ t := by
        rintro rfl
        exact (List.nodup_append.1 hnd).2.2 ha (by simp)
      have hab : a ≠ b := by
        rintro rfl
        exact hbl (by simp [ha])
      exact ⟨x, by rw [hget a hab hat, hx], rfl⟩
    · have h2t : h2[t]? = some { tb with next := some b } := by
        rw [store_get hs2 t, if_neg htb, store_get hs1 t, if_pos rfl, htb2]
        rfl
      obtain ⟨x, hx⟩ : ∃ x, h1[b]? = some x := by
        have : b < h1.length := by rw [store_length hs1]; exact hb
        exact ⟨h1[b], by simp [this]⟩
      have h2b : h2[b]? = some { x with next := none } := by
        rw [store_get hs2 b, if_pos rfl, hx]
        rfl
      exact seg_cons.2 ⟨rfl, _, h2t, seg_cons.2 ⟨rfl, _, h2b, rfl⟩⟩

/-- Removing from a non-empty queue: `dequeue` returns the first cell and the
queue keeps the others in order. -/
theorem dequeue_spec {h : Heap} {q : Queue} {a : Nat} {l : List Nat}
    (hq : IsQueue h q (a :: l)) :
    ∃ q', dequeue h q = some (some a, q') ∧ IsQueue h q' l := by
  obtain ⟨hp, b, hb, hl⟩ := seg_cons.1 hq.1
  cases l with
  | nil =>
    have hn : b.next = none := hl
    exact ⟨empty_queue, by simp [dequeue, hp, hb, hn, empty_queue], isQueue_empty h⟩
  | cons c l =>
    have hn : b.next = some c := (seg_cons.1 hl).1
    refine ⟨{ head := b.next, tail := q.tail }, by simp [dequeue, hp, hb, hn], hl, ?_⟩
    have := hq.2
    simpa using this

theorem dequeue_nil {h : Heap} {q : Queue} (hq : IsQueue h q []) :
    dequeue h q = some (none, q) := by
  have e : q.head = none := hq.1
  simp [dequeue, e]

/-! ## `find_shortest_job` on well-formed queues -/

theorem getLast?_cons_or (a : Nat) (l : List Nat) (prev : Ptr) :
    ((a :: l).getLast?).or prev = (l.getLast?).or (some a) := by
  cases l with
  | nil => rfl
  | cons c l =>
    rw [List.getLast?_cons_cons]
    cases hh : (c :: l).getLast? with
    | none => simp at hh
    | some y => rfl

/-- The scan of `find_shortest_job`: either nothing below the running minimum
`m` is met and the selection is unchanged, or the leftmost cell of least
remaining time is selected, together with its predecessor. -/
theorem find_shortest_loop_spec {h : Heap} :
    ∀ {l : List Nat} {p : Ptr} (fuel : Nat) (prev sp s : Ptr) (m : Int),
      Seg h p l none → l.length < fuel →
      ∃ s' sp', find_shortest_loop h fuel p prev sp s m = some (s', sp') ∧
        ((s' = s ∧ sp' = sp ∧ ∀ y ∈ l, m ≤ remaining_time_of h y) ∨
         (∃ l1 x l2, l = l1 ++ x :: l2 ∧ s' = some x ∧ sp' = (l1.getLast?).or prev ∧
            remaining_time_of h x < m ∧
            (∀ y ∈ l1, remaining_time_of h x < remaining_time_of h y) ∧
            (∀ y ∈ l2, remaining_time_of h x ≤ remaining_time_of h y)))
  | [], p, fuel, prev, sp, s, m, hs, hf => by
    have e : p = none := hs
    subst e
    cases fuel with
    | zero => simp at hf
    | succ k => exact ⟨s, sp, by simp [find_shortest_loop], Or.inl ⟨rfl, rfl, by simp⟩⟩
  | a :: l, p, fuel, prev, sp, s, m, hs, hf => by
    obtain ⟨hp, b, hb, hl⟩ := seg_cons.1 hs
    subst hp
    cases fuel with
    | zero => simp at hf
    | succ k =>
      have hk : l.length < k := by simpa using hf
      have hra : remaining_time_of h a = b.remaining_time := by simp [remaining_time_of, hb]
      by_cases hlt : b.remaining_time < m
      · obtain ⟨s', sp', he, hcase⟩ :=
          find_shortest_loop_spec k (some a) prev (some a) b.remaining_time hl hk
        refine ⟨s', sp', by simp [find_shortest_loop, hb, hlt, he], Or.inr ?_⟩
        rcases hcase with ⟨h1, h2, h3⟩ | ⟨l1, x, l2, hl12, h1, h2, h3, h4, h5⟩
        · exact ⟨[], a, l, rfl, h1, by simp [h2], by rw [hra]; exact hlt, by simp,
            fun y hy => by rw [hra]; exact h3 y hy⟩
        · refine ⟨a :: l1, x, l2, by simp [hl12], h1, ?_, lt_trans h3 hlt, ?_, h5⟩
          · rw [h2, getLast?_cons_or]
          · intro y hy
            rcases List.mem_cons.1 hy with rfl | hy
            · rw [hra]; exact h3
            · exact h4 y hy
      · obtain ⟨s', sp', he, hcase⟩ := find_shortest_loop_spec k (some a) sp s m hl hk
        refine ⟨s', sp', by simp [find_shortest_loop, hb, hlt, he], ?_⟩
        rcases hcase with ⟨h1, h2, h3⟩ | ⟨l1, x, l2, hl12, h1, h2, h3, h4, h5⟩
        · refine Or.inl ⟨h1, h2, ?_⟩
          intro y hy
          rcases List.mem_cons.1 hy with rfl | hy
          · rw [hra]; exact le_of_not_lt hlt
          · exact h3 y hy
        · refine Or.inr ⟨a :: l1, x, l2, by simp [hl12], h1, ?_, h3, ?_, h5⟩
          · rw [h2, getLast?_cons_or]
          · intro y hy
            rcases List.mem_cons.1 hy with rfl | hy
            · rw [hra]; exact lt_of_lt_of_le h3 (le_of_not_lt hlt)
            · exact h4 y hy

/-- What `find_shortest_job` does to the heap, whatever the queue: only
`next` fields change. -/
theorem find_shortest_job_effect {h h' : Heap} {q q' : Queue} {p : Ptr}
    (he : find_shortest_job h q = some (p, h', q')) :
    h'.length = h.length ∧
    (∀ {α : Type} (g : Burst → α), (∀ x n, g { x with next := n } = g x) →
      ∀ a : Nat, (h'[a]?).map g = (h[a]?).map g) := by
  unfold find_shortest_job at he
  simp only [Option.bind_eq_some] at he
  obtain ⟨r, _, he⟩ := he
  cases hs : r.1 with
  | none => simp [hs] at he
  | some s =>
    cases hsb : h[s]? with
    | none => simp [hs, hsb] at he
    | some sb =>
      cases hsp : r.2 with
      | none =>
        simp only [hs, hsb, hsp, Option.map_some', Option.some.injEq, Prod.mk.injEq] at he
        obtain ⟨_, rfl, _⟩ := he
        exact ⟨rfl, fun _ _ _ => rfl⟩
      | some sp =>
        simp only [hs, hsb, hsp, Option.map_map, Option.map_eq_some', Function.comp,
          Prod.mk.injEq] at he
        obtain ⟨h1, hs1, _, rfl, _⟩ := he
        exact ⟨store_length hs1, fun g hg a => store_proj g hs1 (fun x => hg x _) a⟩

/-- A scan that meets no remaining time below `INT_MAX` selects nothing, and
`find_shortest_job` then dereferences `NULL`. -/
theorem find_shortest_job_undefined {h : Heap} {q : Queue} {l : List Nat}
    (hq : IsQueue h q l) (hall : ∀ y ∈ l, INT_MAX ≤ remaining_time_of h y) :
    find_shortest_job h q = none := by
  have hle := chain_length_le hq.1
  obtain ⟨s', sp', he, hcase⟩ :=
    find_shortest_loop_spec (h := h) (h.length + 1) none none none INT_MAX hq.1 (by omega)
  rcases hcase with ⟨h1, _, _⟩ | ⟨l1, x, l2, hl12, _, _, h3, _, _⟩
  · subst h1
    simp [find_shortest_job, he]
  · exact absurd h3 (not_lt.2 (hall x (by simp [hl12])))

/-- On a well-formed queue holding a cell of remaining time below `INT_MAX`,
`find_shortest_job` returns the leftmost cell of least remaining time and
unlinks it: the queue keeps the other cells in order, and only the `next`
field of the predecessor is written. -/
theorem find_shortest_job_spec {h : Heap} {q : Queue} {l : List Nat}
    (hq : IsQueue h q l) (hex : ∃ y ∈ l, remaining_time_of h y < INT_MAX) :
    ∃ l1 x l2 h' q', l = l1 ++ x :: l2 ∧
      find_shortest_job h q = some (some x, h', q') ∧ IsQueue h' q' (l1 ++ l2) ∧
      (∀ y ∈ l1, remaining_time_of h x < remaining_time_of h y) ∧
      (∀ y ∈ l2, remaining_time_of h x ≤ remaining_time_of h y) ∧
      (∀ a, l1.getLast? ≠ some a → h'[a]? = h[a]?) := by
  have hle := chain_length_le hq.1
  have hnd := chain_nodup hq.1
  obtain ⟨s', sp', he, hcase⟩ :=
    find_shortest_loop_spec (h := h) (h.length + 1) none none none INT_MAX hq.1 (by omega)
  rcases hcase with ⟨_, _, h3⟩ | ⟨l1, x, l2, hl12, h1, h2, _, h4, h5⟩
  · obtain ⟨y, hy, hlt⟩ := hex
    exact absurd hlt (not_lt.2 (h3 y hy))
  subst hl12 h1
  have hsp : sp' = l1.getLast? := by
    rw [h2]
    cases l1.getLast? <;> rfl
  subst hsp
  obtain ⟨m, hs1, hs2⟩ := seg_append.1 hq.1
  obtain ⟨hm, xb, hxb, hs3⟩ := seg_cons.1 hs2
  subst hm
  have htail : q.tail = (l1 ++ x :: l2).getLast? := hq.2
  have hmid := getLast?_middle hnd
  rcases List.eq_nil_or_concat l1 with rfl | ⟨l0, p, rfl⟩
  · refine ⟨[], x, l2, h, if some x = q.tail then { head := xb.next, tail := none }
      else { head := xb.next, tail := q.tail }, rfl, ?_, ?_, h4, h5, fun _ _ => rfl⟩
    · simp [find_shortest_job, he, hxb]
    · by_cases ht : some x = q.tail
      · have hl2 : l2 = [] := hmid.1 (by rw [← htail, ← ht])
        subst hl2
        rw [if_pos ht]
        exact ⟨hs3, rfl⟩
      · have hl2 : l2 ≠ [] := fun e => ht (by rw [htail]; exact (hmid.2 e).symm)
        rw [if_neg ht]
        refine ⟨hs3, ?_⟩
        show q.tail = ([] ++ l2).getLast?
        rw [getLast?_remove hl2, htail]
  · rw [List.concat_eq_append] at *
    have hlast : (l0 ++ [p]).getLast? = some p := List.getLast?_concat l0
    rw [hlast] at he
    have hplt : p < h.length := seg_lt hq.1 p (by simp)
    obtain ⟨h1, hst⟩ := store_defined (fun b => { b with next := xb.next }) hplt
    obtain ⟨m, hs0, hsp⟩ := seg_append.1 hs1
    obtain ⟨hm, pb, hpb, _⟩ := seg_cons.1 hsp
    subst hm
    have hnd2 : (l0 ++ p :: (x :: l2)).Nodup := by simpa using hnd
    have hp0 : p ∉ l0 := fun hp =>
      (List.nodup_append.1 hnd2).2.2 hp (by simp)
    have hp2 : p ∉ l2 := by
      have := (List.nodup_cons.1 (List.nodup_append.1 hnd2).2.1).1
      exact fun hp => this (by simp [hp])
    have hkeep : ∀ {l' : List Nat} {a r : Ptr}, p ∉ l' → Seg h a l' r → Seg h1 a l' r := by
      intro l' a r hpl hs
      refine seg_congr ?_ hs
      intro c hc b hb
      have hcp : c ≠ p := fun e => hpl (e ▸ hc)
      exact ⟨b, by rw [store_get hst c, if_neg hcp, hb], rfl⟩
    have h1p : h1[p]? = some { pb with next := xb.next } := by
      rw [store_get hst p, if_pos rfl, hpb]
      rfl
    have hseg : Seg h1 q.head (l0 ++ [p] ++ l2) none := by
      rw [List.append_assoc]
      exact seg_append.2 ⟨some p, hkeep hp0 hs0, seg_cons.2 ⟨rfl, _, h1p, hkeep hp2 hs3⟩⟩
    refine ⟨l0 ++ [p], x, l2, h1, if some x = q.tail then { head := q.head, tail := some p }
      else q, rfl, ?_, ?_, h4, h5, ?_⟩
    · simp [find_shortest_job, he, hxb, hst]
    · by_cases ht : some x = q.tail
      · have hl2 : l2 = [] := hmid.1 (by rw [← htail, ← ht])
        subst hl2
        rw [if_pos ht]
        exact ⟨hseg, by simp⟩
      · have hl2 : l2 ≠ [] := fun e => ht (by rw [htail]; exact (hmid.2 e).symm)
        rw [if_neg ht]
        refine ⟨hseg, ?_⟩
        rw [getLast?_remove hl2, htail]
    · intro a ha
      have hap : a ≠ p := fun e => ha (by rw [hlast, e])
      rw [store_get hst a, if_neg hap]

/-! ## Lists of queues -/

theorem getD_set {α : Type} (l : List α) (i j : Nat) (x d : α) (hi : i < l.length) :
    (l.set i x).getD j d = if j = i then x else l.getD j d := by
  simp only [List.getD_eq_getElem?_getD, List.getElem?_set]
  by_cases hji : j = i
  · subst hji
    simp [hi]
  · have : i ≠ j := fun e => hji e.symm
    simp [this, hji]

theorem set_getD_self {α : Type} (l : List α) (i : Nat) (d : α) :
    l.set i (l.getD i d) = l := by
  by_cases hi : i < l.length
  · apply List.ext_getElem? 
    intro j
    rw [List.getElem?_set]
    by_cases hij : i = j
    · subst hij
      simp [hi, List.getD_eq_getElem?_getD]
    · simp [hij]
  · exact List.set_eq_of_length_le (not_lt.1 hi)

theorem mem_flatten_of_getD : ∀ {qs : List (List Nat)} {i : Nat} {a : Nat},
    a ∈ qs.getD i [] → a ∈ qs.flatten
  | [], i, a, ha => by simp at ha
  | l :: qs, 0, a, ha => by
    simp only [List.getD_cons_zero] at ha
    simp [ha]
  | l :: qs, i + 1, a, ha => by
    simp only [List.getD_cons_succ] at ha
    simp only [List.flatten_cons, List.mem_append]
    exact Or.inr (mem_flatten_of_getD ha)

theorem disjoint_of_nodup_flatten : ∀ {qs : List (List Nat)} {i j : Nat} {a : Nat},
    qs.flatten.Nodup → i ≠ j → a ∈ qs.getD i [] → a ∈ qs.getD j [] → False
  | [], i, j, a, _, _, ha, _ => by simp at ha
  | l :: qs, 0, 0, a, _, hij, _, _ => hij rfl
  | l :: qs, 0, j + 1, a, hn, _, ha, hb => by
    simp only [List.getD_cons_zero] at ha
    simp only [List.getD_cons_succ] at hb
    rw [List.flatten_cons] at hn
    exact (List.nodup_append.1 hn).2.2 ha (mem_flatten_of_getD hb)
  | l :: qs, i + 1, 0, a, hn, _, ha, hb => by
    simp only [List.getD_cons_zero] at hb
    simp only [List.getD_cons_succ] at ha
    rw [List.flatten_cons] at hn
    exact (List.nodup_append.1 hn).2.2 hb (mem_flatten_of_getD ha)
  | l :: qs, i + 1, j + 1, a, hn, hij, ha, hb => by
    simp only [List.getD_cons_succ] at ha hb
    rw [List.flatten_cons] at hn
    exact disjoint_of_nodup_flatten (List.nodup_append.1 hn).2.1
      (fun e => hij (by rw [e])) ha hb

/-- Replacing one queue: up to order, the cells are those of the other queues
together with the new queue. -/
theorem flatten_set_perm : ∀ (qs : List (List Nat)) (i : Nat), i < qs.length →
    ∃ R, qs.flatten.Perm (qs.getD i [] ++ R) ∧ ∀ l', (qs.set i l').flatten.Perm (l' ++ R)
  | [], i, hi => by simp at hi
  | l :: qs, 0, _ => ⟨qs.flatten, by simp, fun l' => by simp⟩
  | l :: qs, i + 1, hi => by
    obtain ⟨R, h1, h2⟩ := flatten_set_perm qs i (by simpa using hi)
    refine ⟨l ++ R, ?_, fun l' => ?_⟩
    · simp only [List.flatten_cons, List.getD_cons_succ]
      refine (List.Perm.append_left l h1).trans ?_
      rw [List.perm_iff_count]
      intro a
      simp only [List.count_append]
      omega
    · simp only [List.set_cons_succ, List.flatten_cons]
      refine (List.Perm.append_left l (h2 l')).trans ?_
      rw [List.perm_iff_count]
      intro a
      simp only [List.count_append]
      omega

/-! ## Well-formed states -/

theorem abs_initialize :
    Abs initialize_simulation (List.replicate MAX_PROCESSORS []) [] := by decide

theorem abs_queue {st : State} {qs : List (List Nat)} {fin : List Nat} (habs : Abs st qs fin)
    {i : Nat} (hi : i < MAX_PROCESSORS) :
    IsQueue st.heap (st.mutex_queues.getD i empty_queue) (qs.getD i []) := habs.2.2.1 i hi

theorem abs_finished {st : State} {qs : List (List Nat)} {fin : List Nat}
    (habs : Abs st qs fin) : IsQueue st.heap st.finished_bursts fin := habs.2.2.2.1

theorem abs_nodup {st : State} {qs : List (List Nat)} {fin : List Nat}
    (habs : Abs st qs fin) : (qs.flatten ++ fin).Nodup := habs.2.2.2.2

theorem abs_worker_queue {st : State} {qs : List (List Nat)} {fin : List Nat}
    (habs : Abs st qs fin) {i : Nat} (hi : i < MAX_PROCESSORS) :
    st.mutex_queues[i]? = some (st.mutex_queues.getD i empty_queue) := by
  have hlen : i < st.mutex_queues.length := by rw [habs.1]; exact hi
  simp [List.getD_eq_getElem?_getD, hlen]

theorem abs_disjoint_queues {st : State} {qs : List (List Nat)} {fin : List Nat}
    (habs : Abs st qs fin) {i j a : Nat} (hij : i ≠ j) (ha : a ∈ qs.getD i [])
    (hb : a ∈ qs.getD j []) : False :=
  disjoint_of_nodup_flatten (List.nodup_append.1 (abs_nodup habs)).1 hij ha hb

theorem abs_disjoint_finished {st : State} {qs : List (List Nat)} {fin : List Nat}
    (habs : Abs st qs fin) {i a : Nat} (ha : a ∈ qs.getD i []) (hb : a ∈ fin) : False :=
  (List.nodup_append.1 (abs_nodup habs)).2.2 (mem_flatten_of_getD ha) hb

theorem isQueue_frame {h h' : Heap} {q : Queue} {l : List Nat}
    (hf : ∀ a ∈ l, h'[a]? = h[a]?) (hq : IsQueue h q l) : IsQueue h' q l :=
  ⟨seg_congr (fun a ha b hb => ⟨b, by rw [hf a ha, hb], rfl⟩) hq.1, hq.2⟩

/-- Replacing the queue `i` and the finished sequence in a well-formed state,
when the heap is unchanged on the cells of the other queues. -/
theorem abs_update {st : State} {qs : List (List Nat)} {fin : List Nat} (habs : Abs st qs fin)
    {i : Nat} (hi : i < MAX_PROCESSORS) {h' : Heap} {q' fq' : Queue} {l' fin' : List Nat}
    (cnt : Int) (hq' : IsQueue h' q' l') (hf' : IsQueue h' fq' fin')
    (hframe : ∀ j, j < MAX_PROCESSORS → j ≠ i → ∀ a ∈ qs.getD j [], h'[a]? = st.heap[a]?)
    (hnd : ∀ R, (∀ a ∈ R, a ∈ qs.flatten) → (qs.getD i [] ++ R ++ fin).Nodup →
      (l' ++ R ++ fin').Nodup) :
    Abs { heap := h', mutex_queues := st.mutex_queues.set i q', finished_bursts := fq'
          completed_processes := cnt } (qs.set i l') fin' := by
  obtain ⟨hl1, hl2, hqs, hfin, hnodup⟩ := habs
  have hi1 : i < st.mutex_queues.length := by rw [hl1]; exact hi
  have hi2 : i < qs.length := by rw [hl2]; exact hi
  refine ⟨by simp [hl1], by simp [hl2], ?_, hf', ?_⟩
  · intro j hj
    show IsQueue h' ((st.mutex_queues.set i q').getD j empty_queue) ((qs.set i l').getD j [])
    rw [getD_set _ _ _ _ _ hi1, getD_set _ _ _ _ _ hi2]
    by_cases hji : j = i
    · rw [if_pos hji, if_pos hji]
      exact hq'
    · rw [if_neg hji, if_neg hji]
      exact isQueue_frame (hframe j hj hji) (hqs j hj)
  · obtain ⟨R, hp1, hp2⟩ := flatten_set_perm qs i hi2
    have hR : ∀ a ∈ R, a ∈ qs.flatten := fun a ha =>
      hp1.mem_iff.2 (List.mem_append_right _ ha)
    have h1 : (qs.getD i [] ++ R ++ fin).Nodup :=
      (List.Perm.nodup_iff (List.Perm.append_right fin hp1)).1 hnodup
    exact (List.Perm.nodup_iff (List.Perm.append_right fin' (hp2 l'))).2 (hnd R hR h1)

theorem abs_lt_queue {st : State} {qs : List (List Nat)} {fin : List Nat} (habs : Abs st qs fin)
    {i a : Nat} (hi : i < MAX_PROCESSORS) (ha : a ∈ qs.getD i []) : a < st.heap.length :=
  seg_lt (abs_queue habs hi).1 a ha

theorem abs_lt {st : State} {qs : List (List Nat)} {fin : List Nat} (habs : Abs st qs fin)
    {a : Nat} (ha : a ∈ qs.flatten ++ fin) : a < st.heap.length := by
  rcases List.mem_append.1 ha with ha | ha
  · obtain ⟨l, hl, hal⟩ := List.mem_flatten.1 ha
    obtain ⟨i, hi, rfl⟩ := List.getElem_of_mem hl
    have hi2 : i < MAX_PROCESSORS := by rw [← habs.2.1]; exact hi
    exact abs_lt_queue habs hi2 (by rw [List.getD_eq_getElem _ _ hi]; exact hal)
  · exact seg_lt (abs_finished habs).1 a ha

/-! ## Loading -/

theorem index?_natCast {α : Type} (l : List α) (i : Nat) : index? l (i : Int) = l[i]? := by
  simp [index?]

theorem index?_eq_some {α : Type} {l : List α} {t : Int} {x : α} (h : index? l t = some x) :
    ∃ i : Nat, t = (i : Int) ∧ l[i]? = some x := by
  unfold index? at h
  by_cases ht : 0 ≤ t
  · rw [if_pos ht] at h
    exact ⟨t.toNat, (Int.toNat_of_nonneg ht).symm, h⟩
  · rw [if_neg ht] at h
    cases h

theorem flatten_set_append_perm (qs : List (List Nat)) (i b : Nat) (hi : i < qs.length) :
    (qs.set i (qs.getD i [] ++ [b])).flatten.Perm (qs.flatten ++ [b]) := by
  obtain ⟨R, h1, h2⟩ := flatten_set_perm qs i hi
  have h3 := h2 (qs.getD i [] ++ [b])
  rw [List.perm_iff_count] at h1 h3 ⊢
  intro a
  have e1 := h1 a
  have e3 := h3 a
  simp only [List.count_append] at e1 e3 ⊢
  omega

/-- The statement `enqueue(&mutex_queues[i].queue, burst)` on a freshly
allocated burst, `i` inside the array: it succeeds and appends the burst to
the queue `i`, leaving every other queue and the finished sequence alone. -/
theorem enqueue_at_spec {st : State} {qs : List (List Nat)} {fin : List Nat}
    (habs : Abs st qs fin) {i : Nat} (hi : i < MAX_PROCESSORS) (nb : Burst) :
    ∃ st', enqueue_at st (st.heap ++ [nb]) (i : Int) st.heap.length = some st' ∧
      Abs st' (qs.set i (qs.getD i [] ++ [st.heap.length])) fin ∧
      st'.heap.length = st.heap.length + 1 ∧
      st'.finished_bursts = st.finished_bursts ∧
      st'.completed_processes = st.completed_processes ∧
      (∀ {α : Type} (g : Burst → α), (∀ x n, g { x with next := n } = g x) →
        ∀ a : Nat, (st'.heap[a]?).map g = ((st.heap ++ [nb])[a]?).map g) := by
  have hq := abs_queue habs hi
  have hold : ∀ a, a < st.heap.length → (st.heap ++ [nb])[a]? = st.heap[a]? :=
    fun a ha => List.getElem?_append_left ha
  have hq0 : IsQueue (st.heap ++ [nb]) (st.mutex_queues.getD i empty_queue) (qs.getD i []) :=
    isQueue_frame (fun a ha => hold a (abs_lt_queue habs hi ha)) hq
  have hfresh : ∀ a ∈ qs.flatten ++ fin, a ≠ st.heap.length :=
    fun a ha => Nat.ne_of_lt (abs_lt habs ha)
  have hbl : st.heap.length ∉ qs.getD i [] :=
    fun hb => hfresh _ (List.mem_append_left _ (mem_flatten_of_getD hb)) rfl
  obtain ⟨h', q', he, hq'⟩ := enqueue_spec hq0 (by simp) hbl
  obtain ⟨hlen, _, hfr, hproj⟩ := enqueue_effect he
  have hkeep : ∀ a, a ∈ qs.flatten ++ fin → a ∉ qs.getD i [] → h'[a]? = st.heap[a]? := by
    intro a ha hai
    rw [hfr a (hfresh a ha) ?_, hold a (abs_lt habs ha)]
    intro ht
    rw [hq.2] at ht
    exact hai (List.mem_of_getLast?_eq_some ht)
  have hrun : enqueue_at st (st.heap ++ [nb]) (i : Int) st.heap.length =
      some { heap := h', mutex_queues := st.mutex_queues.set i q'
             finished_bursts := st.finished_bursts
             completed_processes := st.completed_processes } := by
    unfold enqueue_at
    rw [index?_natCast, abs_worker_queue habs hi]
    simp only [he, Option.map_some', Int.toNat_ofNat]
  refine ⟨_, hrun, ?_, by simp [hlen], rfl, rfl, fun g hg a => hproj g hg a⟩
  refine abs_update habs hi st.completed_processes hq' ?_ ?_ ?_
  · refine isQueue_frame (fun a ha => ?_) (abs_finished habs)
    exact hkeep a (List.mem_append_right _ ha) (fun hai => abs_disjoint_finished habs hai ha)
  · intro j _ hji a ha
    exact hkeep a (List.mem_append_left _ (mem_flatten_of_getD ha))
      (fun hai => abs_disjoint_queues habs hji ha hai)
  · intro R hR hn
    have hp : (qs.getD i [] ++ [st.heap.length] ++ R ++ fin).Perm
        (st.heap.length :: (qs.getD i [] ++ R ++ fin)) := by
      rw [List.perm_iff_count]
      intro a
      simp only [List.count_append, List.count_cons, List.count_nil]
      omega
    refine (List.Perm.nodup_iff hp).2 (List.nodup_cons.2 ⟨?_, hn⟩)
    intro hb
    refine hfresh _ ?_ rfl
    simp only [List.mem_append] at hb ⊢
    rcases hb with (hb | hb) | hb
    · exact Or.inl (mem_flatten_of_getD hb)
    · exact Or.inl (hR _ hb)
    · exact Or.inr hb

/-- Whenever `enqueue(&mutex_queues[t].queue, burst)` is defined, `t` is an
index of the array and the burst has been appended to that queue. -/
theorem enqueue_at_abs {st st' : State} {qs : List (List Nat)} {fin : List Nat}
    (habs : Abs st qs fin) (nb : Burst) (t : Int)
    (he : enqueue_at st (st.heap ++ [nb]) t st.heap.length = some st') :
    ∃ i, i < MAX_PROCESSORS ∧ t = (i : Int) ∧
      Abs st' (qs.set i (qs.getD i [] ++ [st.heap.length])) fin ∧
      st'.heap.length = st.heap.length + 1 := by
  have hidx : ∃ q, index? st.mutex_queues t = some q := by
    unfold enqueue_at at he
    cases hq : index? st.mutex_queues t with
    | none => simp [hq] at he
    | some q => exact ⟨q, rfl⟩
  obtain ⟨q, hq⟩ := hidx
  obtain ⟨i, rfl, hi⟩ := index?_eq_some hq
  have hi2 : i < MAX_PROCESSORS := by
    rw [← habs.1]
    exact (List.getElem?_eq_some.1 hi).1
  obtain ⟨st2, he2, habs2, hlen, _⟩ := enqueue_at_spec habs hi2 nb
  rw [he] at he2
  cases he2
  exact ⟨i, hi2, rfl, habs2, hlen⟩

/-- One defined iteration of the loading loop keeps the state well formed;
the new burst is appended to one queue, unless the policy character is
neither 'S' nor 'M', in which case it is in no queue. -/
theorem load_burst_abs {cfg : Config} {st st' : State} {qs : List (List Nat)} {fin : List Nat}
    (habs : Abs st qs fin) (pid burst_length arrival_time : Int)
    (hl : load_burst cfg st pid burst_length arrival_time = some st') :
    st'.heap.length = st.heap.length + 1 ∧
    ((∃ i, i < MAX_PROCESSORS ∧
        Abs st' (qs.set i (qs.getD i [] ++ [st.heap.length])) fin) ∨
     (cfg.sap ≠ 'S' ∧ cfg.sap ≠ 'M' ∧ Abs st' qs fin)) := by
  unfold load_burst at hl
  by_cases hS : cfg.sap = 'S'
  · rw [if_pos hS] at hl
    obtain ⟨i, hi, _, h1, h2⟩ := enqueue_at_abs habs _ 0 hl
    exact ⟨h2, Or.inl ⟨i, hi, h1⟩⟩
  · by_cases hM : cfg.sap = 'M'
    · rw [if_neg hS, if_pos hM, Option.bind_eq_some] at hl
      obtain ⟨t, _, he⟩ := hl
      obtain ⟨i, hi, _, h1, h2⟩ := enqueue_at_abs habs _ t he
      exact ⟨h2, Or.inl ⟨i, hi, h1⟩⟩
    · rw [if_neg hS, if_neg hM, Option.some.injEq] at hl
      subst hl
      refine ⟨by simp, Or.inr ⟨hS, hM, ?_⟩⟩
      have hold : ∀ a, a < st.heap.length →
          (st.heap ++ [new_burst pid burst_length arrival_time])[a]? = st.heap[a]? :=
        fun a ha => List.getElem?_append_left ha
      obtain ⟨hl1, hl2, hqs, hfin, hnodup⟩ := habs
      refine ⟨hl1, hl2, fun i hi => ?_, ?_, hnodup⟩
      · exact isQueue_frame (fun a ha => hold a (seg_lt (hqs i hi).1 a ha)) (hqs i hi)
      · exact isQueue_frame (fun a ha => hold a (seg_lt hfin.1 a ha)) hfin

/-- The scan of the "LM" branch: started with the least loaded queue among
the first `i`, it returns the least loaded queue among the first `i + k`,
the lowest index winning ties. -/
theorem least_loaded_loop_spec {h : Heap} {mq : List Queue} (len : Nat → Nat)
    (hlen : ∀ j, j < MAX_PROCESSORS → ∃ q, mq[j]? = some q ∧ queue_length h q = some (len j)) :
    ∀ (k i min target : Nat), i + k ≤ MAX_PROCESSORS → target < i → min = len target →
      (∀ j, j < i → len target ≤ len j) → (∀ j, j < target → len target < len j) →
      ∃ t, least_loaded_loop h mq k i min target = some t ∧ t < i + k ∧
        (∀ j, j < i + k → len t ≤ len j) ∧ (∀ j, j < t → len t < len j)
  | 0, i, min, target, _, ht, _, h1, h2 =>
    ⟨target, rfl, by omega, fun j hj => h1 j (by omega), h2⟩
  | k + 1, i, min, target, hik, ht, hmin, h1, h2 => by
    obtain ⟨q, hq, hql⟩ := hlen i (by omega)
    by_cases hlt : len i < min
    · obtain ⟨t, he, h3, h4, h5⟩ := least_loaded_loop_spec len hlen k (i + 1) (len i) i
        (by omega) (by omega) rfl
        (fun j hj => by
          rcases Nat.lt_succ_iff_lt_or_eq.1 hj with hj | rfl
          · have := h1 j hj
            omega
          · exact le_refl _)
        (fun j hj => by
          have := h1 j hj
          omega)
      exact ⟨t, by simp [least_loaded_loop, hq, hql, hlt, he], by omega,
        fun j hj => h4 j (by omega), h5⟩
    · obtain ⟨t, he, h3, h4, h5⟩ := least_loaded_loop_spec len hlen k (i + 1) min target
        (by omega) (by omega) hmin
        (fun j hj => by
          rcases Nat.lt_succ_iff_lt_or_eq.1 hj with hj | rfl
          · exact h1 j hj
          · omega)
        h2
      exact ⟨t, by simp [least_loaded_loop, hq, hql, hlt, he], by omega,
        fun j hj => h4 j (by omega), h5⟩

/-- On a well-formed state the code's `queue_length` of the queue `j`, taken
after the allocation of the new burst, is the number of cells of the queue. -/
theorem abs_queue_length {st : State} {qs : List (List Nat)} {fin : List Nat}
    (habs : Abs st qs fin) (nb : Burst) {j : Nat} (hj : j < MAX_PROCESSORS) :
    ∃ q, st.mutex_queues[j]? = some q ∧
      queue_length (st.heap ++ [nb]) q = some (qs.getD j []).length := by
  refine ⟨_, abs_worker_queue habs hj, queue_length_spec ?_⟩
  exact isQueue_frame
    (fun a ha => List.getElem?_append_left (abs_lt_queue habs hj ha)) (abs_queue habs hj)

/-- The value of `target_queue` under "LM" with 1 to 10 processors: the
lowest index among the least loaded of the first `n_processors` queues. -/
theorem target_queue_least_loaded {cfg : Config} {st : State} {qs : List (List Nat)}
    {fin : List Nat} (habs : Abs st qs fin) (hqs : cfg.qs = "LM")
    (hn1 : 1 ≤ cfg.n_processors) (hn2 : cfg.n_processors ≤ 10) (nb : Burst) (pid : Int) :
    ∃ t : Nat, target_queue cfg (st.heap ++ [nb]) st.mutex_queues pid = some (t : Int) ∧
      (t : Int) < cfg.n_processors ∧
      (∀ i : Nat, (i : Int) < cfg.n_processors →
        (qs.getD t []).length ≤ (qs.getD i []).length) ∧
      (∀ j : Nat, j < t → (qs.getD t []).length < (qs.getD j []).length) := by
  have hlen := fun j hj => abs_queue_length habs nb (j := j) hj
  obtain ⟨q0, hq0, hl0⟩ := hlen 0 (by decide)
  obtain ⟨t, he, h3, h4, h5⟩ := least_loaded_loop_spec (fun j => (qs.getD j []).length) hlen
    (cfg.n_processors - 1).toNat 1 (qs.getD 0 []).length 0
    (by simp only [MAX_PROCESSORS]; omega) (by omega) rfl
    (fun j hj => by
      have : j = 0 := by omega
      subst this
      exact le_refl _)
    (fun j hj => by omega)
  have hne : ¬ ("LM" : String) = "RM" := by decide
  refine ⟨t, ?_, by omega, fun i hi => h4 i (by omega), h5⟩
  simp only [target_queue, hqs, if_neg hne, if_true, hq0, hl0, he, Option.map_some',
    Int.ofNat_eq_coe]

/-- Under 'M', once `target_queue` is an index `t` of the array, the load is
defined and appends the new burst to the queue `t` only. -/
theorem load_burst_at_target {cfg : Config} {st : State} {qs : List (List Nat)}
    {fin : List Nat} (habs : Abs st qs fin) (hsap : cfg.sap = 'M')
    {pid burst_length arrival_time : Int} {t : Nat} (ht : t < MAX_PROCESSORS)
    (htq : target_queue cfg (st.heap ++ [new_burst pid burst_length arrival_time])
      st.mutex_queues pid = some (t : Int)) :
    ∃ st', load_burst cfg st pid burst_length arrival_time = some st' ∧
      Abs st' (qs.set t (qs.getD t [] ++ [st.heap.length])) fin := by
  obtain ⟨st', he, habs', _⟩ :=
    enqueue_at_spec habs ht (new_burst pid burst_length arrival_time)
  have hMS : ¬ ('M' : Char) = 'S' := by decide
  refine ⟨st', ?_, habs'⟩
  simp only [load_burst, hsap, if_neg hMS, if_true, htq, Option.some_bind]
  exact he

/-! ## The worker iteration -/

theorem select_burst_empty (cfg : Config) (h : Heap) {q : Queue}
    (he : is_queue_empty q = true) : select_burst cfg h q = some (none, h, q) := by
  simp [select_burst, he]

theorem select_burst_fifo {cfg : Config} (h : Heap) {q : Queue}
    (hne : is_queue_empty q = false) (halg : cfg.alg = "RR" ∨ cfg.alg = "FCFS") :
    select_burst cfg h q = (dequeue h q).map fun r => (r.1, h, r.2) := by
  rcases halg with h1 | h1
  · simp [select_burst, hne, h1]
  · have h2 : ¬ ("FCFS" : String) = "RR" := by decide
    have h3 : ¬ ("FCFS" : String) = "SJF" := by decide
    simp [select_burst, hne, h1, h2, h3]

theorem select_burst_sjf {cfg : Config} (h : Heap) {q : Queue}
    (hne : is_queue_empty q = false) (halg : cfg.alg = "SJF") :
    select_burst cfg h q = find_shortest_job h q := by
  have h2 : ¬ ("SJF" : String) = "RR" := by decide
  simp [select_burst, hne, halg, h2]

theorem select_burst_other {cfg : Config} (h : Heap) (q : Queue)
    (h1 : cfg.alg ≠ "RR") (h2 : cfg.alg ≠ "SJF") (h3 : cfg.alg ≠ "FCFS") :
    select_burst cfg h q = some (none, h, q) := by
  simp [select_burst, h1, h2, h3]

theorem processor_iteration_none_selected {cfg : Config} {st : State} {c : Nat} {mq : Queue}
    (elapsed : Int) (hw : worker_queue st c = some mq)
    (hs : select_burst cfg st.heap mq = some (none, st.heap, mq)) :
    processor_iteration cfg c elapsed st = some st := by
  have hset : st.mutex_queues.set c mq = st.mutex_queues := by
    have hw2 : st.mutex_queues[c]? = some mq := hw
    have : mq = st.mutex_queues.getD c empty_queue := by
      simp [List.getD_eq_getElem?_getD, hw2]
    rw [this]
    exact set_getD_self _ _ _
  simp only [processor_iteration, hw, hs, Option.some_bind, hset]

/-- A worker iteration whose selection removed the cell `x` from the queue of
the worker: the three field updates and the `enqueue` into `finished_bursts`
are defined, and `x` has moved to the end of the finished sequence. -/
theorem complete_spec {cfg : Config} {st : State} {qs : List (List Nat)} {fin : List Nat}
    (habs : Abs st qs fin) {c : Nat} (hc : c < MAX_PROCESSORS) (elapsed : Int)
    (l1 l2 : List Nat) {x : Nat} (hl : qs.getD c [] = l1 ++ x :: l2)
    {h1 : Heap} {q1 : Queue} (hq1 : IsQueue h1 q1 (l1 ++ l2))
    (hfr : ∀ a, l1.getLast? ≠ some a → h1[a]? = st.heap[a]?)
    (hlen : h1.length = st.heap.length)
    (hs : select_burst cfg st.heap (st.mutex_queues.getD c empty_queue) = some (some x, h1, q1)) :
    ∃ st', processor_iteration cfg c elapsed st = some st' ∧
      Abs st' (qs.set c (l1 ++ l2)) (fin ++ [x]) ∧
      st'.completed_processes = st.completed_processes + 1 := by
  have hxc : x ∈ qs.getD c [] := by rw [hl]; simp
  have hndc : (l1 ++ x :: l2).Nodup := by
    rw [← hl]
    exact chain_nodup (abs_queue habs hc).1
  have hx1 : x < h1.length := by rw [hlen]; exact abs_lt_queue habs hc hxc
  have hxfin : x ∉ fin := fun hx => abs_disjoint_finished habs hxc hx
  have hlast : ∀ a, l1.getLast? = some a → a ∈ qs.getD c [] := by
    intro a ha
    rw [hl]
    exact List.mem_append_left _ (List.mem_of_getLast?_eq_some ha)
  obtain ⟨h2, hs2⟩ := store_defined (fun b => { b with cpu_id := (c : Int) }) hx1
  obtain ⟨h3, hs3⟩ := store_defined (h := h2) (fun b => { b with finish_time := elapsed })
    (by rw [store_length hs2]; exact hx1)
  obtain ⟨h4, hs4⟩ := store_defined (h := h3)
    (fun b => { b with turnaround_time := toInt32 (b.finish_time - b.arrival_time) })
    (by rw [store_length hs3, store_length hs2]; exact hx1)
  have hk4 : ∀ a, a ≠ x → h4[a]? = h1[a]? := by
    intro a hax
    rw [store_get hs4 a, if_neg hax, store_get hs3 a, if_neg hax, store_get hs2 a, if_neg hax]
  have hx4 : x < h4.length := by
    rw [store_length hs4, store_length hs3, store_length hs2]; exact hx1
  have hfin4 : IsQueue h4 st.finished_bursts fin := by
    refine isQueue_frame (fun a ha => ?_) (abs_finished habs)
    have hax : a ≠ x := fun e => hxfin (e ▸ ha)
    rw [hk4 a hax]
    exact hfr a (fun hla => abs_disjoint_finished habs (hlast a hla) ha)
  obtain ⟨h', fq', he, hfq'⟩ := enqueue_spec hfin4 hx4 hxfin
  obtain ⟨_, _, hfr', _⟩ := enqueue_effect he
  have hkeep : ∀ a, a ≠ x → a ∉ fin → h'[a]? = h1[a]? := by
    intro a hax hafin
    rw [hfr' a hax ?_, hk4 a hax]
    intro ht
    rw [hfin4.2] at ht
    exact hafin (List.mem_of_getLast?_eq_some ht)
  have hrun : processor_iteration cfg c elapsed st =
      some { heap := h', mutex_queues := st.mutex_queues.set c q1, finished_bursts := fq'
             completed_processes := st.completed_processes + 1 } := by
    simp only [processor_iteration, worker_queue, abs_worker_queue habs hc, hs, Option.some_bind,
      hs2, hs3, hs4, he, Option.map_some']
  refine ⟨_, hrun, ?_, rfl⟩
  refine abs_update habs hc _ ?_ hfq' ?_ ?_
  · refine isQueue_frame (fun a ha => ?_) hq1
    have hac : a ∈ qs.getD c [] := by
      rw [hl]
      rcases List.mem_append.1 ha with ha | ha
      · exact List.mem_append_left _ ha
      · exact List.mem_append_right _ (List.mem_cons_of_mem _ ha)
    refine hkeep a ?_ (fun hafin => abs_disjoint_finished habs hac hafin)
    rintro rfl
    have h1n := List.nodup_append.1 hndc
    rcases List.mem_append.1 ha with ha | ha
    · exact h1n.2.2 ha (List.mem_cons_self _ _)
    · exact (List.nodup_cons.1 h1n.2.1).1 ha
  · intro j _ hjc a ha
    have hax : a ≠ x := by
      rintro rfl
      exact abs_disjoint_queues habs hjc ha hxc
    rw [hkeep a hax (fun hafin => abs_disjoint_finished habs ha hafin)]
    exact hfr a (fun hla => abs_disjoint_queues habs hjc ha (hlast a hla))
  · intro R _ hn
    rw [hl] at hn
    refine (List.Perm.nodup_iff ?_).2 hn
    rw [List.perm_iff_count]
    intro a
    simp only [List.count_append, List.count_cons, List.count_nil]
    omega

/-- The complete behaviour of a worker iteration on a well-formed state: it
selects nothing and leaves the state as it is, or it moves one cell of the
worker's queue to the end of the finished sequence, or it is undefined. -/
theorem processor_iteration_cases (cfg : Config) {st : State} {qs : List (List Nat)}
    {fin : List Nat} (habs : Abs st qs fin) {c : Nat} (hc : c < MAX_PROCESSORS)
    (elapsed : Int) :
    processor_iteration cfg c elapsed st = some st ∨
    (∃ l1 x l2 st', qs.getD c [] = l1 ++ x :: l2 ∧
      processor_iteration cfg c elapsed st = some st' ∧
      Abs st' (qs.set c (l1 ++ l2)) (fin ++ [x]) ∧
      st'.completed_processes = st.completed_processes + 1) ∨
    processor_iteration cfg c elapsed st = none := by
  have hq := abs_queue habs hc
  have hw : worker_queue st c = some (st.mutex_queues.getD c empty_queue) :=
    abs_worker_queue habs hc
  cases hl : qs.getD c [] with
  | nil =>
    left
    rw [hl] at hq
    refine processor_iteration_none_selected elapsed hw ?_
    exact select_burst_empty cfg _ ((is_queue_empty_iff hq).2 rfl)
  | cons a l =>
    rw [hl] at hq
    have hne : is_queue_empty (st.mutex_queues.getD c empty_queue) = false := by
      cases hb : is_queue_empty (st.mutex_queues.getD c empty_queue) with
      | false => rfl
      | true => exact absurd ((is_queue_empty_iff hq).1 hb) (by simp)
    have hfifo : cfg.alg = "RR" ∨ cfg.alg = "FCFS" →
        ∃ l1 x l2 st', a :: l = l1 ++ x :: l2 ∧
          processor_iteration cfg c elapsed st = some st' ∧
          Abs st' (qs.set c (l1 ++ l2)) (fin ++ [x]) ∧
          st'.completed_processes = st.completed_processes + 1 := by
      intro halg
      obtain ⟨q', hd, hq'⟩ := dequeue_spec hq
      have hs : select_burst cfg st.heap (st.mutex_queues.getD c empty_queue) =
          some (some a, st.heap, q') := by
        rw [select_burst_fifo _ hne halg, hd]
        rfl
      obtain ⟨st', hrun, habs', hcnt⟩ :=
        complete_spec habs hc elapsed [] l hl hq' (fun _ _ => rfl) rfl hs
      exact ⟨[], a, l, st', rfl, hrun, habs', hcnt⟩
    by_cases hRR : cfg.alg = "RR"
    · exact Or.inr (Or.inl (hfifo (Or.inl hRR)))
    · by_cases hSJF : cfg.alg = "SJF"
      · have hs0 : select_burst cfg st.heap (st.mutex_queues.getD c empty_queue) =
            find_shortest_job st.heap (st.mutex_queues.getD c empty_queue) :=
          select_burst_sjf _ hne hSJF
        by_cases hex : ∃ y ∈ a :: l, remaining_time_of st.heap y < INT_MAX
        · obtain ⟨l1, x, l2, h', q', hl12, hf, hq', _, _, hfr⟩ := find_shortest_job_spec hq hex
          rw [hf] at hs0
          obtain ⟨st', hrun, habs', hcnt⟩ :=
            complete_spec habs hc elapsed l1 l2 (hl.trans hl12) hq' hfr
              (find_shortest_job_effect hf).1 hs0
          exact Or.inr (Or.inl ⟨l1, x, l2, st', hl12, hrun, habs', hcnt⟩)
        · right; right
          have hall : ∀ y ∈ a :: l, INT_MAX ≤ remaining_time_of st.heap y := by
            intro y hy
            exact not_lt.1 (fun hlt => hex ⟨y, hy, hlt⟩)
          rw [find_shortest_job_undefined hq hall] at hs0
          simp only [processor_iteration, hw, hs0, Option.none_bind]
      · by_cases hF : cfg.alg = "FCFS"
        · exact Or.inr (Or.inl (hfifo (Or.inr hF)))
        · left
          exact processor_iteration_none_selected elapsed hw
            (select_burst_other _ _ hRR hSJF hF)

/-! ## Effects on the fields of the bursts, on arbitrary states -/

theorem data_next (x : Burst) (n : Ptr) : Burst.data { x with next := n } = Burst.data x := rfl

theorem select_burst_effect {cfg : Config} {h h1 : Heap} {q q1 : Queue} {p : Ptr}
    (hs : select_burst cfg h q = some (p, h1, q1)) :
    h1.length = h.length ∧ ∀ a : Nat, (h1[a]?).map Burst.data = (h[a]?).map Burst.data := by
  have hdeq : ∀ {r : Option (Ptr × Queue)},
      r.map (fun r => (r.1, h, r.2)) = some (p, h1, q1) → h1 = h := by
    intro r hr
    cases r with
    | none => simp at hr
    | some v =>
      simp only [Option.map_some', Option.some.injEq, Prod.mk.injEq] at hr
      exact hr.2.1.symm
  unfold select_burst at hs
  by_cases he : is_queue_empty q = true
  · simp only [he, Bool.not_true, Bool.false_eq_true, if_false, Option.some.injEq,
      Prod.mk.injEq] at hs
    obtain ⟨_, rfl, _⟩ := hs
    exact ⟨rfl, fun _ => rfl⟩
  · have he2 : (!is_queue_empty q) = true := by simpa using he
    rw [if_pos he2] at hs
    by_cases hRR : cfg.alg = "RR"
    · rw [if_pos hRR] at hs
      rw [hdeq hs]
      exact ⟨rfl, fun _ => rfl⟩
    · rw [if_neg hRR] at hs
      by_cases hSJF : cfg.alg = "SJF"
      · rw [if_pos hSJF] at hs
        obtain ⟨h1l, hp⟩ := find_shortest_job_effect hs
        exact ⟨h1l, fun a => hp Burst.data data_next a⟩
      · rw [if_neg hSJF] at hs
        by_cases hF : cfg.alg = "FCFS"
        · rw [if_pos hF] at hs
          rw [hdeq hs]
          exact ⟨rfl, fun _ => rfl⟩
        · rw [if_neg hF, Option.some.injEq, Prod.mk.injEq] at hs
          obtain ⟨_, rfl, _⟩ := hs
          exact ⟨rfl, fun _ => rfl⟩

/-- What a defined worker iteration does to the bursts, on any state: either
no burst is completed and no field other than `next` changes, or one burst
`x` is completed: it is the new tail of `finished_bursts`, its `cpu_id`,
`finish_time` and `turnaround_time` are written, and nothing else changes. -/
theorem processor_iteration_effect {cfg : Config} {c : Nat} {elapsed : Int} {st st' : State}
    (hrun : processor_iteration cfg c elapsed st = some st') :
    (st'.completed_processes = st.completed_processes ∧
      st'.finished_bursts = st.finished_bursts ∧
      ∀ a : Nat, (st'.heap[a]?).map Burst.data = (st.heap[a]?).map Burst.data) ∨
    (∃ x b, st'.completed_processes = st.completed_processes + 1 ∧
      st'.finished_bursts.tail = some x ∧ st.heap[x]? = some b ∧
      (st'.heap[x]?).map Burst.data =
        some (Burst.data { b with cpu_id := (c : Int), finish_time := elapsed,
                                  turnaround_time := toInt32 (elapsed - b.arrival_time) }) ∧
      ∀ a : Nat, a ≠ x → (st'.heap[a]?).map Burst.data = (st.heap[a]?).map Burst.data) := by
  unfold processor_iteration at hrun
  cases hw : worker_queue st c with
  | none => simp [hw] at hrun
  | some mq =>
    simp only [hw, Option.bind_eq_some] at hrun
    obtain ⟨⟨p, h1, q1⟩, hs, hrun⟩ := hrun
    obtain ⟨_, hd1⟩ := select_burst_effect hs
    cases p with
    | none =>
      simp only [Option.some.injEq] at hrun
      subst hrun
      exact Or.inl ⟨rfl, rfl, hd1⟩
    | some x =>
      simp only [Option.bind_eq_some, Option.map_eq_some'] at hrun
      obtain ⟨h2, hs2, h3, hs3, h4, hs4, ⟨h', fq'⟩, he, rfl⟩ := hrun
      obtain ⟨_, htail, _, hproj⟩ := enqueue_effect he
      have hk4 : ∀ a, a ≠ x → h4[a]? = h1[a]? := by
        intro a hax
        rw [store_get hs4 a, if_neg hax, store_get hs3 a, if_neg hax, store_get hs2 a,
          if_neg hax]
      obtain ⟨b1, hb1, _⟩ := store_eq_some.1 hs2
      have hx1 := hd1 x
      rw [hb1] at hx1
      cases hb : st.heap[x]? with
      | none => simp [hb] at hx1
      | some b =>
        rw [hb] at hx1
        simp only [Option.map_some', Option.some.injEq] at hx1
        refine Or.inr ⟨x, b, rfl, htail, hb, ?_, ?_⟩
        · show (h'[x]?).map Burst.data = _
          rw [hproj Burst.data data_next x, store_get hs4 x, if_pos rfl, store_get hs3 x,
            if_pos rfl, store_get hs2 x, if_pos rfl, hb1]
          simp only [Option.map_some', Option.some.injEq]
          cases b1
          cases b
          simp only [Burst.data, Burst.mk.injEq] at hx1 ⊢
          simp [hx1]
        · intro a hax
          show (h'[a]?).map Burst.data = _
          rw [hproj Burst.data data_next a, hk4 a hax, hd1 a]

/-- One defined iteration of the loading loop allocates one cell holding the
new burst and changes no field other than `next` in the older cells. -/
theorem load_burst_effect {cfg : Config} {st st' : State} {pid burst_length arrival_time : Int}
    (hl : load_burst cfg st pid burst_length arrival_time = some st') :
    st'.heap.length = st.heap.length + 1 ∧
    (st'.heap[st.heap.length]?).map Burst.data =
      some (new_burst pid burst_length arrival_time) ∧
    ∀ a : Nat, a < st.heap.length →
      (st'.heap[a]?).map Burst.data = (st.heap[a]?).map Burst.data := by
  have hat : ∀ {t : Int} {s : State}, enqueue_at st
      (st.heap ++ [new_burst pid burst_length arrival_time]) t st.heap.length = some s →
      s.heap.length = st.heap.length + 1 ∧
      (s.heap[st.heap.length]?).map Burst.data =
        some (new_burst pid burst_length arrival_time) ∧
      ∀ a : Nat, a < st.heap.length →
        (s.heap[a]?).map Burst.data = (st.heap[a]?).map Burst.data := by
    intro t s he
    unfold enqueue_at at he
    cases hq : index? st.mutex_queues t with
    | none => simp [hq] at he
    | some q =>
      simp only [hq, Option.map_eq_some'] at he
      obtain ⟨⟨h', q'⟩, he, rfl⟩ := he
      obtain ⟨hlen, _, _, hproj⟩ := enqueue_effect he
      refine ⟨by simp [hlen], ?_, fun a ha => ?_⟩
      · show (h'[st.heap.length]?).map Burst.data = _
        rw [hproj Burst.data data_next]
        simp [Burst.data, new_burst]
      · show (h'[a]?).map Burst.data = _
        rw [hproj Burst.data data_next, List.getElem?_append_left ha]
  unfold load_burst at hl
  by_cases hS : cfg.sap = 'S'
  · rw [if_pos hS] at hl
    exact hat hl
  · by_cases hM : cfg.sap = 'M'
    · rw [if_neg hS, if_pos hM, Option.bind_eq_some] at hl
      obtain ⟨t, _, he⟩ := hl
      exact hat he
    · rw [if_neg hS, if_neg hM, Option.some.injEq] at hl
      subst hl
      refine ⟨by simp, by simp [Burst.data, new_burst], fun a ha => ?_⟩
      show ((st.heap ++ _)[a]?).map Burst.data = _
      rw [List.getElem?_append_left ha]

/-! ## Assignment (claims C1, C2) -/

/-- Round-robin-by-id assignment for identifiers that are not negative: with
1 to 10 processors, policy 'M' and sub-policy "RM", loading a burst with
identifier `pid ≥ 0` is defined and appends the burst to the queue of index
`pid mod n_processors`, an index below `n_processors`; the other queues and
the finished sequence keep their cells. -/
theorem rm_assignment_nonneg {cfg : Config} {st : State} {qs : List (List Nat)}
    {fin : List Nat} (habs : Abs st qs fin) (hsap : cfg.sap = 'M') (hqs : cfg.qs = "RM")
    (hn1 : 1 ≤ cfg.n_processors) (hn2 : cfg.n_processors ≤ 10)
    (pid burst_length arrival_time : Int) (hp : 0 ≤ pid) :
    ∃ (t : Nat) (st' : State), (t : Int) = pid % cfg.n_processors ∧
      (t : Int) < cfg.n_processors ∧
      load_burst cfg st pid burst_length arrival_time = some st' ∧
      Abs st' (qs.set t (qs.getD t [] ++ [st.heap.length])) fin := by
  have h0 : 0 ≤ pid % cfg.n_processors := Int.emod_nonneg _ (by omega)
  have h1 : pid % cfg.n_processors < cfg.n_processors := Int.emod_lt_of_pos _ (by omega)
  have ht : ((pid % cfg.n_processors).toNat : Int) = pid % cfg.n_processors :=
    Int.toNat_of_nonneg h0
  have ht10 : (pid % cfg.n_processors).toNat < MAX_PROCESSORS := by
    simp only [MAX_PROCESSORS]
    omega
  have hn0 : ¬ (cfg.n_processors = 0 ∨ (pid = INT_MIN ∧ cfg.n_processors = -1)) := by
    rintro (h | ⟨_, h⟩) <;> omega
  have htq : target_queue cfg (st.heap ++ [new_burst pid burst_length arrival_time])
      st.mutex_queues pid = some ((pid % cfg.n_processors).toNat : Int) := by
    have hmod : Int.tmod pid cfg.n_processors = pid % cfg.n_processors :=
      Int.tmod_eq_emod hp (by omega)
    rw [ht]
    simp only [target_queue, hqs, if_true, if_neg hn0, hmod]
  obtain ⟨st', hl, habs'⟩ := load_burst_at_target habs hsap ht10 htq
  exact ⟨(pid % cfg.n_processors).toNat, st', ht, by rw [ht]; exact h1, hl, habs'⟩

/-- C1, at its failing input: with four processors, policy 'M' and sub-policy
"RM", the burst of identifier -1 gets `target_queue = -1 % 4 = -1`, which is
not an index of `mutex_queues`, so that the load is undefined (the claim asks
for the queue 3 = -1 mod 4). -/
theorem rm_assignment_negative_pid :
    target_queue (config 4 'M' "RM" "RR") [new_burst (-1) 100 0]
      initialize_simulation.mutex_queues (-1) = some (-1) ∧
    load_burst (config 4 'M' "RM" "RR") initialize_simulation (-1) 100 0 = none := by
  decide

/-- C2: least-loaded assignment.  On every well-formed state, with 1 to 10
processors, policy 'M' and sub-policy "LM", loading a burst is defined and
appends the burst to the queue of an index `t < n_processors` such that the
queue `t` is no longer than any of the first `n_processors` queues and
strictly shorter than every queue of lower index; the lengths are those the
code measures with `queue_length`, and no other queue changes. -/
theorem least_loaded_assignment (cfg : Config) (st : State) (qs : List (List Nat))
    (fin : List Nat) (habs : Abs st qs fin) (hsap : cfg.sap = 'M') (hqs : cfg.qs = "LM")
    (hn1 : 1 ≤ cfg.n_processors) (hn2 : cfg.n_processors ≤ 10)
    (pid burst_length arrival_time : Int) :
    ∃ (t : Nat) (st' : State), (t : Int) < cfg.n_processors ∧
      load_burst cfg st pid burst_length arrival_time = some st' ∧
      Abs st' (qs.set t (qs.getD t [] ++ [st.heap.length])) fin ∧
      (∀ i : Nat, (i : Int) < cfg.n_processors →
        ∃ qt qi lt li, st.mutex_queues[t]? = some qt ∧ st.mutex_queues[i]? = some qi ∧
          queue_length (st.heap ++ [new_burst pid burst_length arrival_time]) qt = some lt ∧
          queue_length (st.heap ++ [new_burst pid burst_length arrival_time]) qi = some li ∧
          lt = (qs.getD t []).length ∧ li = (qs.getD i []).length ∧ lt ≤ li) ∧
      (∀ j : Nat, j < t → (qs.getD t []).length < (qs.getD j []).length) := by
  obtain ⟨t, htq, htn, hmin, hlow⟩ :=
    target_queue_least_loaded habs hqs hn1 hn2 (new_burst pid burst_length arrival_time) pid
  have ht10 : t < MAX_PROCESSORS := by
    simp only [MAX_PROCESSORS]
    omega
  obtain ⟨st', hl, habs'⟩ := load_burst_at_target habs hsap ht10 htq
  refine ⟨t, st', htn, hl, habs', ?_, hlow⟩
  · intro i hi
    have hi10 : i < MAX_PROCESSORS := by
      simp only [MAX_PROCESSORS]
      omega
    obtain ⟨qt, hqt, hlt⟩ := abs_queue_length habs (new_burst pid burst_length arrival_time) ht10
    obtain ⟨qi, hqi, hli⟩ := abs_queue_length habs (new_burst pid burst_length arrival_time) hi10
    exact ⟨qt, qi, _, _, hqt, hqi, hlt, hli, rfl, rfl, hmin i hi⟩

theorem least_loaded_assignment_witness :
    Abs sample_state sample_queues [] ∧
    ∃ (t : Nat) (st' : State), (t : Int) < (config 3 'M' "LM" "RR").n_processors ∧
      load_burst (config 3 'M' "LM" "RR") sample_state 7 50 0 = some st' ∧
      Abs st' (sample_queues.set t (sample_queues.getD t [] ++ [sample_state.heap.length])) [] ∧
      (∀ i : Nat, (i : Int) < (config 3 'M' "LM" "RR").n_processors →
        ∃ qt qi lt li, sample_state.mutex_queues[t]? = some qt ∧
          sample_state.mutex_queues[i]? = some qi ∧
          queue_length (sample_state.heap ++ [new_burst 7 50 0]) qt = some lt ∧
          queue_length (sample_state.heap ++ [new_burst 7 50 0]) qi = some li ∧
          lt = (sample_queues.getD t []).length ∧ li = (sample_queues.getD i []).length ∧
          lt ≤ li) ∧
      (∀ j : Nat, j < t → (sample_queues.getD t []).length < (sample_queues.getD j []).length) :=
  ⟨by decide, least_loaded_assignment (config 3 'M' "LM" "RR") sample_state sample_queues []
    (by decide) rfl rfl (by decide) (by decide) 7 50 0⟩

/-! ## Selection (claims C3, C4, C5, C6) -/

/-- C3, at its failing input: on the well-formed queue holding one burst of
remaining time `INT_MAX = 2147483647` no remaining time is below the initial
`min_remaining_time`, `shortest` stays `NULL`, and `find_shortest_job`
dereferences it; the worker iteration that calls it under "SJF" is undefined
as well (the claim asks for that burst to be returned). -/
theorem find_shortest_job_int_max :
    IsQueue [new_burst 0 2147483647 0] { head := some 0, tail := some 0 } [0] ∧
    find_shortest_loop [new_burst 0 2147483647 0] 2 (some 0) none none none INT_MAX
      = some (none, none) ∧
    find_shortest_job [new_burst 0 2147483647 0] { head := some 0, tail := some 0 } = none ∧
    (read_input_file (config 1 'S' "RM" "SJF") initialize_simulation
      [(0, 2147483647, 0)]).bind (processor_iteration (config 1 'S' "RM" "SJF") 0 0) = none := by
  decide

theorem enqueue_all_spec :
    ∀ (bs : List Nat) {h : Heap} {q : Queue} {l : List Nat}, IsQueue h q l →
      (l ++ bs).Nodup → (∀ b ∈ bs, b < h.length) →
      ∃ h' q', enqueue_all h q bs = some (h', q') ∧ IsQueue h' q' (l ++ bs)
  | [], h, q, l, hq, _, _ => ⟨h, q, rfl, by simpa using hq⟩
  | b :: bs, h, q, l, hq, hnd, hlt => by
    have hbl : b ∉ l := fun hb =>
      (List.nodup_append.1 hnd).2.2 hb (List.mem_cons_self _ _)
    obtain ⟨h1, q1, he, hq1⟩ := enqueue_spec hq (hlt b (List.mem_cons_self _ _)) hbl
    have hlen := (enqueue_effect he).1
    obtain ⟨h', q', he', hq'⟩ := enqueue_all_spec bs hq1 (by simpa using hnd)
      (fun c hc => by rw [hlen]; exact hlt c (List.mem_cons_of_mem _ hc))
    exact ⟨h', q', by simp [enqueue_all, he, he'], by simpa using hq'⟩

theorem dequeue_all_spec {h : Heap} :
    ∀ (k : Nat) {q : Queue} {l : List Nat}, IsQueue h q l → k ≤ l.length →
      ∃ qk, dequeue_all h k q = some ((l.take k).map some, qk) ∧ IsQueue h qk (l.drop k)
  | 0, q, l, hq, _ => ⟨q, rfl, by simpa using hq⟩
  | k + 1, q, [], _, hk => by simp at hk
  | k + 1, q, a :: l, hq, hk => by
    obtain ⟨q1, hd, hq1⟩ := dequeue_spec hq
    obtain ⟨qk, hdk, hqk⟩ := dequeue_all_spec k hq1 (by simpa using hk)
    exact ⟨qk, by simp [dequeue_all, hd, hdk], by simpa using hqk⟩

/-- C4: first in, first out.  Starting from a well-formed queue holding the
cells `l` (the empty queue, `l = []`, to begin with), a sequence of `enqueue`
calls for distinct allocated bursts `bs` not yet in the queue is defined and
leaves the queue holding `l ++ bs`; then, for every `k` up to the length,
`k` calls of `dequeue` return the first `k` cells of `l ++ bs` in insertion
order, each call returning the earliest-inserted cell still in the queue, and
leave the other cells in their insertion order. -/
theorem fifo_order {h : Heap} {q : Queue} {l : List Nat} (hq : IsQueue h q l)
    (bs : List Nat) (hnd : (l ++ bs).Nodup) (hlt : ∀ b ∈ bs, b < h.length) :
    ∃ h' q', enqueue_all h q bs = some (h', q') ∧ IsQueue h' q' (l ++ bs) ∧
      ∀ k, k ≤ (l ++ bs).length →
        ∃ qk, dequeue_all h' k q' = some (((l ++ bs).take k).map some, qk) ∧
          IsQueue h' qk ((l ++ bs).drop k) := by
  obtain ⟨h', q', he, hq'⟩ := enqueue_all_spec bs hq hnd hlt
  exact ⟨h', q', he, hq', fun k hk => dequeue_all_spec k hq' hk⟩

theorem fifo_order_witness :
    (IsQueue [new_burst 0 100 0, new_burst 1 50 0] empty_queue [] ∧
      ([] ++ [0, 1] : List Nat).Nodup ∧
      ∀ b ∈ [0, 1], b < [new_burst 0 100 0, new_burst 1 50 0].length) ∧
    ∃ h' q', enqueue_all [new_burst 0 100 0, new_burst 1 50 0] empty_queue [0, 1]
        = some (h', q') ∧ IsQueue h' q' ([] ++ [0, 1]) ∧
      ∀ k, k ≤ ([] ++ [0, 1] : List Nat).length →
        ∃ qk, dequeue_all h' k q' = some ((([] ++ [0, 1] : List Nat).take k).map some, qk) ∧
          IsQueue h' qk (([] ++ [0, 1] : List Nat).drop k) :=
  ⟨by decide, fifo_order (h := [new_burst 0 100 0, new_burst 1 50 0]) (q := empty_queue)
    (l := []) (by decide) [0, 1] (by decide) (by decide)⟩

/-- The first-come-first-served scenario of the specification: bursts of
lengths 100 and 50 enqueued in this order are dequeued in this order. -/
theorem fifo_scenario :
    ((enqueue_all [new_burst 0 100 0, new_burst 1 50 0] empty_queue [0, 1]).bind
      fun r => dequeue_all r.1 2 r.2) = some ([some 0, some 1], empty_queue) := by
  decide

/-- C5, at its failing input: with two processors under the single-queue
policy 'S', the loaded burst is in `mutex_queues[0]`, but the worker 1 serves
`mutex_queues[1]`, which is empty, and its iteration selects nothing and
leaves the state as it is (the claim asks for the worker 1 to select from
the queue that assignment fills). -/
theorem single_queue_not_shared :
    ∃ st, read_input_file (config 2 'S' "RM" "RR") initialize_simulation [(0, 100, 0)]
        = some st ∧
      st.mutex_queues[0]? = some { head := some 0, tail := some 0 } ∧
      worker_queue st 0 = some { head := some 0, tail := some 0 } ∧
      worker_queue st 1 = some empty_queue ∧
      processor_iteration (config 2 'S' "RM" "RR") 1 0 st = some st :=
  ⟨_, rfl, by decide, by decide, by decide, by decide⟩

/-- C6, at its failing input: on the well-formed queue holding the remaining
times 300 and `INT_MAX`, in this order, the first call of
`find_shortest_job` returns the burst of 300 and the second one is undefined,
as is the only call on the queue holding `INT_MAX` alone (the claim asks for
the order 300, `INT_MAX`); the defect is the one of C3. -/
theorem find_shortest_all_int_max :
    IsQueue [{ new_burst 0 300 0 with next := some 1 }, new_burst 1 2147483647 0]
      { head := some 0, tail := some 1 } [0, 1] ∧
    find_shortest_all 1 [{ new_burst 0 300 0 with next := some 1 }, new_burst 1 2147483647 0]
      { head := some 0, tail := some 1 } = some [some 0] ∧
    find_shortest_all 2 [{ new_burst 0 300 0 with next := some 1 }, new_burst 1 2147483647 0]
      { head := some 0, tail := some 1 } = none ∧
    find_shortest_all 1 [new_burst 0 2147483647 0] { head := some 0, tail := some 0 } = none := by
  decide

/-- The shortest-job scenario of the specification: on the queue holding the
remaining times 300, 100 and 200, in this order, three calls of
`find_shortest_job` return the bursts of 100, 200 and 300. -/
theorem find_shortest_scenario :
    ((enqueue_all [new_burst 0 300 0, new_burst 1 100 0, new_burst 2 200 0] empty_queue
      [0, 1, 2]).bind fun r => find_shortest_all 3 r.1 r.2) = some [some 1, some 2, some 0] := by
  decide

/-! ## Conservation under assignment (claim C7) -/

/-- A defined run of the loading loop keeps the state well formed and the
finished sequence as it is; under a recognised configuration the cells of the
queues are afterwards the former ones together with the cells allocated by
the run, each once. -/
theorem read_input_file_abs {cfg : Config} {fin : List Nat} :
    ∀ (records : List (Int × Int × Int)) {st st' : State} {qs : List (List Nat)},
      Abs st qs fin → read_input_file cfg st records = some st' →
      ∃ qs', Abs st' qs' fin ∧ st'.heap.length = st.heap.length + records.length ∧
        (Recognised cfg →
          qs'.flatten.Perm (qs.flatten ++ List.range' st.heap.length records.length))
  | [], st, st', qs, habs, hl => by
    simp only [read_input_file, Option.some.injEq] at hl
    subst hl
    exact ⟨qs, habs, rfl, fun _ => by simp⟩
  | r :: rest, st, st', qs, habs, hl => by
    unfold read_input_file at hl
    cases h1 : load_burst cfg st r.1 r.2.1 r.2.2 with
    | none => simp [h1] at hl
    | some st1 =>
      simp only [h1] at hl
      obtain ⟨hlen1, hcase⟩ := load_burst_abs habs _ _ _ h1
      rcases hcase with ⟨i, hi, habs1⟩ | ⟨hS, hM, habs1⟩
      · obtain ⟨qs', habs', hlen', hperm⟩ := read_input_file_abs rest habs1 hl
        refine ⟨qs', habs', by simp [hlen', hlen1]; omega, fun hrec => ?_⟩
        have hp1 := flatten_set_append_perm qs i st.heap.length (by rw [habs.2.1]; exact hi)
        have hp2 := hperm hrec
        rw [hlen1] at hp2
        refine hp2.trans ?_
        rw [List.length_cons, List.range'_succ]
        refine (List.Perm.append_right _ hp1).trans ?_
        simp
      · obtain ⟨qs', habs', hlen', _⟩ := read_input_file_abs rest habs1 hl
        refine ⟨qs', habs', by simp [hlen', hlen1]; omega, fun hrec => ?_⟩
        rcases hrec with h | ⟨h, _⟩
        · exact absurd h hS
        · exact absurd h hM

/-- Assignment conserves bursts whenever it is defined: starting from the
empty queues of `initialize_simulation`, under a recognised configuration,
after a defined run of the loading loop over `k` records every loaded burst
(the cells `0 .. k-1`) is in exactly one queue, and the lengths of the queues
add up to `k`. -/
theorem assignment_conserves {cfg : Config} (hrec : Recognised cfg)
    {records : List (Int × Int × Int)} {st : State}
    (hl : read_input_file cfg initialize_simulation records = some st) :
    ∃ qs, Abs st qs [] ∧ qs.flatten.Nodup ∧ (∀ a, a ∈ qs.flatten ↔ a < records.length) ∧
      (qs.map List.length).sum = records.length := by
  obtain ⟨qs, habs, _, hperm⟩ := read_input_file_abs records abs_initialize hl
  have hp : qs.flatten.Perm (List.range records.length) := by
    have := hperm hrec
    have h0 : (List.replicate MAX_PROCESSORS ([] : List Nat)).flatten = [] := by decide
    rw [h0] at this
    simpa [List.range_eq_range', initialize_simulation] using this
  refine ⟨qs, habs, (List.Perm.nodup_iff hp).2 (List.nodup_range _), fun a => ?_, ?_⟩
  · rw [hp.mem_iff, List.mem_range]
  · rw [← List.length_flatten, hp.length_eq, List.length_range]

/-- The function `create_random_bursts` runs the loading loop on the identifiers
`i, i + 1, ...` and the values drawn. -/
theorem create_random_bursts_eq (cfg : Config) :
    ∀ (draws : List (Int × Int)) (st : State) (i : Int),
      create_random_bursts cfg st i draws = read_input_file cfg st (random_records i draws)
  | [], _, _ => rfl
  | r :: rest, st, i => by
    simp only [create_random_bursts, random_records, read_input_file]
    cases load_burst cfg st i r.1 r.2 with
    | none => rfl
    | some st1 => exact create_random_bursts_eq cfg rest st1 (i + 1)

theorem random_records_nonneg :
    ∀ (draws : List (Int × Int)) (i : Int), 0 ≤ i → ∀ r ∈ random_records i draws, 0 ≤ r.1
  | [], _, _, r, hr => by simp [random_records] at hr
  | d :: rest, i, hi, r, hr => by
    simp only [random_records, List.mem_cons] at hr
    rcases hr with rfl | hr
    · exact hi
    · exact random_records_nonneg rest (i + 1) (by omega) r hr

/-- The loading loop is defined on every well-formed state, for 1 to 10
processors, under 'S', under 'M' / "LM", and under 'M' / "RM" when no
identifier is negative. -/
theorem loading_defined {cfg : Config} (hn1 : 1 ≤ cfg.n_processors)
    (hn2 : cfg.n_processors ≤ 10) {fin : List Nat} :
    ∀ (records : List (Int × Int × Int)) {st : State} {qs : List (List Nat)},
      Abs st qs fin →
      (cfg.sap = 'S' ∨ (cfg.sap = 'M' ∧ cfg.qs = "LM") ∨
        (cfg.sap = 'M' ∧ cfg.qs = "RM" ∧ ∀ r ∈ records, 0 ≤ r.1)) →
      ∃ st', read_input_file cfg st records = some st'
  | [], st, _, _, _ => ⟨st, rfl⟩
  | r :: rest, st, qs, habs, hcfg => by
    have hstep : ∃ st1 qs1, load_burst cfg st r.1 r.2.1 r.2.2 = some st1 ∧ Abs st1 qs1 fin := by
      rcases hcfg with hS | ⟨hM, hLM⟩ | ⟨hM, hRM, hpid⟩
      · obtain ⟨st1, he, habs1, _⟩ :=
          enqueue_at_spec habs (i := 0) (by decide) (new_burst r.1 r.2.1 r.2.2)
        refine ⟨st1, _, ?_, habs1⟩
        simp only [load_burst, hS, if_true]
        exact he
      · obtain ⟨t, htq, htn, _, _⟩ :=
          target_queue_least_loaded habs hLM hn1 hn2 (new_burst r.1 r.2.1 r.2.2) r.1
        have ht10 : t < MAX_PROCESSORS := by
          simp only [MAX_PROCESSORS]
          omega
        obtain ⟨st1, hl, habs1⟩ := load_burst_at_target habs hM ht10 htq
        exact ⟨st1, _, hl, habs1⟩
      · obtain ⟨t, st1, _, _, hl, habs1⟩ :=
          rm_assignment_nonneg habs hM hRM hn1 hn2 r.1 r.2.1 r.2.2
            (hpid r (List.mem_cons_self _ _))
        exact ⟨st1, _, hl, habs1⟩
    obtain ⟨st1, qs1, hl, habs1⟩ := hstep
    have hcfg1 : cfg.sap = 'S' ∨ (cfg.sap = 'M' ∧ cfg.qs = "LM") ∨
        (cfg.sap = 'M' ∧ cfg.qs = "RM" ∧ ∀ r ∈ rest, 0 ≤ r.1) := by
      rcases hcfg with hS | hLM | ⟨hM, hRM, hpid⟩
      · exact Or.inl hS
      · exact Or.inr (Or.inl hLM)
      · exact Or.inr (Or.inr ⟨hM, hRM, fun x hx => hpid x (List.mem_cons_of_mem _ hx)⟩)
    obtain ⟨st', hl'⟩ := loading_defined hn1 hn2 rest habs1 hcfg1
    exact ⟨st', by simp only [read_input_file, hl, hl']⟩

/-- In random mode, whose identifiers are `0 .. T-1`, loading is defined and
conserves the bursts under every recognised configuration with 1 to 10
processors. -/
theorem create_random_bursts_conserves {cfg : Config} (hrec : Recognised cfg)
    (hn1 : 1 ≤ cfg.n_processors) (hn2 : cfg.n_processors ≤ 10) (draws : List (Int × Int)) :
    ∃ st qs, create_random_bursts cfg initialize_simulation 0 draws = some st ∧
      Abs st qs [] ∧ qs.flatten.Nodup ∧ (∀ a, a ∈ qs.flatten ↔ a < draws.length) ∧
      (qs.map List.length).sum = draws.length := by
  have hlen : ∀ (d : List (Int × Int)) (i : Int), (random_records i d).length = d.length := by
    intro d
    induction d with
    | nil => intro i; rfl
    | cons x d ih => intro i; simp [random_records, ih]
  have hcfg : cfg.sap = 'S' ∨ (cfg.sap = 'M' ∧ cfg.qs = "LM") ∨
      (cfg.sap = 'M' ∧ cfg.qs = "RM" ∧ ∀ r ∈ random_records 0 draws, 0 ≤ r.1) := by
    rcases hrec with hS | ⟨hM, hRM | hLM⟩
    · exact Or.inl hS
    · exact Or.inr (Or.inr ⟨hM, hRM, random_records_nonneg draws 0 (le_refl _)⟩)
    · exact Or.inr (Or.inl ⟨hM, hLM⟩)
  obtain ⟨st, hl⟩ := loading_defined hn1 hn2 (random_records 0 draws) abs_initialize hcfg
  obtain ⟨qs, h1, h2, h3, h4⟩ := assignment_conserves hrec hl
  rw [hlen] at h3 h4
  exact ⟨st, qs, by rw [create_random_bursts_eq, hl], h1, h2, h3, h4⟩

/-- C7, at its failing input: under 'M' / "RM" with four processors the run
of the loading loop over the records with identifiers 0 and -1 is undefined,
the second burst being sent to `mutex_queues[-1]` (the claim asks for both
bursts to be in a queue, with lengths adding up to 2); the defect is the one
of C1. -/
theorem loading_negative_pid_undefined :
    (read_input_file (config 4 'M' "RM" "RR") initialize_simulation [(0, 100, 0)]).isSome
      = true ∧
    read_input_file (config 4 'M' "RM" "RR") initialize_simulation
      [(0, 100, 0), (-1, 50, 0)] = none := by
  decide

/-! ## Completion bookkeeping (claims C8, C9) -/

theorem map_of_data {α : Type} (g : Burst → α) (hg : ∀ b, g (Burst.data b) = g b)
    {x y : Option Burst} (h : x.map Burst.data = y.map Burst.data) : x.map g = y.map g := by
  cases x with
  | none =>
    cases y with
    | none => rfl
    | some b => simp at h
  | some a =>
    cases y with
    | none => simp at h
    | some b =>
      simp only [Option.map_some', Option.some.injEq] at h ⊢
      rw [← hg a, ← hg b, h]

/-- A worker iteration changes neither `burst_length` nor `remaining_time`
of any burst. -/
theorem processor_iteration_lengths {cfg : Config} {c : Nat} {elapsed : Int} {st st' : State}
    (hrun : processor_iteration cfg c elapsed st = some st') (a : Nat) :
    (st'.heap[a]?).map Burst.lengths =
      (st.heap[a]?).map Burst.lengths := by
  rcases processor_iteration_effect hrun with ⟨_, _, h⟩ | ⟨x, b, _, _, hb, hx, hne⟩
  · exact map_of_data Burst.lengths (fun _ => rfl) (h a)
  · by_cases hax : a = x
    · subst hax
      rw [hb]
      have hx2 : (st'.heap[a]?).map Burst.data = Option.map Burst.data
          (some { b with cpu_id := (c : Int), finish_time := elapsed,
                         turnaround_time := toInt32 (elapsed - b.arrival_time) }) := hx
      have hx3 := map_of_data Burst.lengths (fun _ => rfl) hx2
      exact hx3
    · exact map_of_data Burst.lengths (fun _ => rfl) (hne a hax)

theorem reachable_lengths {cfg : Config} {st st' : State} (hr : Reachable cfg st st')
    (a : Nat) :
    (st'.heap[a]?).map Burst.lengths =
      (st.heap[a]?).map Burst.lengths := by
  induction hr with
  | refl => rfl
  | step c e _ _ hrun ih => rw [processor_iteration_lengths hrun a, ih]

theorem read_input_file_lengths {cfg : Config} :
    ∀ (records : List (Int × Int × Int)) {st st' : State},
      read_input_file cfg st records = some st' → ∀ a : Nat, a < st.heap.length →
      (st'.heap[a]?).map Burst.lengths =
        (st.heap[a]?).map Burst.lengths
  | [], st, st', hl, a, _ => by
    simp only [read_input_file, Option.some.injEq] at hl
    subst hl
    rfl
  | r :: rest, st, st', hl, a, ha => by
    unfold read_input_file at hl
    cases h1 : load_burst cfg st r.1 r.2.1 r.2.2 with
    | none => simp [h1] at hl
    | some st1 =>
      simp only [h1] at hl
      obtain ⟨hlen, _, hold⟩ := load_burst_effect h1
      rw [read_input_file_lengths rest hl a (by omega)]
      exact map_of_data Burst.lengths (fun _ => rfl) (hold a ha)

/-- C8, as amended: a loaded burst starts with `remaining_time` equal to
`burst_length`, and keeps both through the rest of the loading and through
every worker iteration, the one that executes it and appends it to the
finished sequence included: `remaining_time` is never written again. -/
theorem remaining_time_kept (cfg : Config) (st : State) {st1 st2 st3 : State}
    {pid burst_length arrival_time : Int} (rest : List (Int × Int × Int))
    (h1 : load_burst cfg st pid burst_length arrival_time = some st1)
    (h2 : read_input_file cfg st1 rest = some st2) (h3 : Reachable cfg st2 st3) :
    ∃ b, st3.heap[st.heap.length]? = some b ∧ b.burst_length = burst_length ∧
      b.remaining_time = burst_length := by
  obtain ⟨hlen, hnew, _⟩ := load_burst_effect h1
  have e1 := map_of_data Burst.lengths (fun _ => rfl)
    (show _ = Option.map Burst.data (some (new_burst pid burst_length arrival_time)) from hnew)
  have e2 := read_input_file_lengths rest h2 st.heap.length (by omega)
  have e3 := reachable_lengths h3 st.heap.length
  rw [e2, e1] at e3
  cases hb : st3.heap[st.heap.length]? with
  | none => simp [hb] at e3
  | some b =>
    rw [hb] at e3
    simp only [Option.map_some', Option.some.injEq, Burst.lengths, Prod.mk.injEq,
      new_burst] at e3
    exact ⟨b, rfl, e3.1, e3.2⟩

theorem remaining_time_kept_witness :
    ∃ st1 st3,
      load_burst (config 1 'S' "RM" "RR") initialize_simulation 0 100 0 = some st1 ∧
      read_input_file (config 1 'S' "RM" "RR") st1 [] = some st1 ∧
      Reachable (config 1 'S' "RM" "RR") st1 st3 ∧
      st3.finished_bursts = { head := some 0, tail := some 0 } ∧
      ∃ b, st3.heap[initialize_simulation.heap.length]? = some b ∧ b.burst_length = 100 ∧
        b.remaining_time = 100 :=
  ⟨_, _, rfl, rfl, Reachable.step 0 1 Reachable.refl (by decide) rfl, by decide,
    remaining_time_kept (config 1 'S' "RM" "RR") initialize_simulation [] rfl rfl
      (Reachable.step 0 1 Reachable.refl (by decide) rfl)⟩

/-- C8, refuted as stated: the burst of length 100 that a worker iteration
executes and appends to the finished sequence has `remaining_time` 100
afterwards, not 0. -/
theorem remaining_time_not_zeroed :
    ∃ st st', read_input_file (config 1 'S' "RM" "RR") initialize_simulation [(0, 100, 0)]
        = some st ∧
      processor_iteration (config 1 'S' "RM" "RR") 0 1 st = some st' ∧
      st'.finished_bursts = { head := some 0, tail := some 0 } ∧
      st'.completed_processes = 1 ∧
      ∃ b, st'.heap[0]? = some b ∧ b.remaining_time = 100 ∧ b.remaining_time ≠ 0 :=
  ⟨_, _, rfl, rfl, by decide, by decide, _, rfl, by decide, by decide⟩

/-- C9, as amended: the worker iteration that completes a burst stores the
clock reading in `finish_time` and `finish_time - arrival_time`, reduced to a
32-bit `int`, in `turnaround_time`; the stored value is `finish_time -
arrival_time` exactly whenever this difference lies in the range of `int`. -/
theorem turnaround_in_range (cfg : Config) (c : Nat) (elapsed : Int) (st : State) {st' : State}
    (hrun : processor_iteration cfg c elapsed st = some st')
    (hdone : st'.completed_processes = st.completed_processes + 1) :
    ∃ x b, st'.finished_bursts.tail = some x ∧ st'.heap[x]? = some b ∧
      b.finish_time = elapsed ∧
      b.turnaround_time = toInt32 (b.finish_time - b.arrival_time) ∧
      (INT_MIN ≤ b.finish_time - b.arrival_time → b.finish_time - b.arrival_time ≤ INT_MAX →
        b.turnaround_time = b.finish_time - b.arrival_time) := by
  rcases processor_iteration_effect hrun with ⟨h, _, _⟩ | ⟨x, b0, _, htail, _, hx, _⟩
  · omega
  · cases hb : st'.heap[x]? with
    | none => simp [hb] at hx
    | some b =>
      rw [hb] at hx
      simp only [Option.map_some', Option.some.injEq] at hx
      have hf : b.finish_time = elapsed := by
        have := congrArg Burst.finish_time hx
        simpa [Burst.data] using this
      have ha : b.arrival_time = b0.arrival_time := by
        have := congrArg Burst.arrival_time hx
        simpa [Burst.data] using this
      have ht : b.turnaround_time = toInt32 (elapsed - b0.arrival_time) := by
        have := congrArg Burst.turnaround_time hx
        simpa [Burst.data] using this
      refine ⟨x, b, htail, hb, hf, by rw [ht, hf, ha], ?_⟩
      intro hlo hhi
      rw [ht, hf, ha]
      rw [hf, ha] at hlo hhi
      simp only [INT_MIN, INT_MAX] at hlo hhi
      unfold toInt32
      omega

theorem turnaround_in_range_witness :
    ∃ st', processor_iteration (config 2 'M' "RM" "RR") 1 3 sample_state = some st' ∧
      st'.completed_processes = sample_state.completed_processes + 1 ∧
      ∃ x b, st'.finished_bursts.tail = some x ∧ st'.heap[x]? = some b ∧
        b.finish_time = 3 ∧
        b.turnaround_time = toInt32 (b.finish_time - b.arrival_time) ∧
        (INT_MIN ≤ b.finish_time - b.arrival_time →
          b.finish_time - b.arrival_time ≤ INT_MAX →
          b.turnaround_time = b.finish_time - b.arrival_time) :=
  ⟨_, rfl, by decide,
    turnaround_in_range (config 2 'M' "RM" "RR") 1 3 sample_state rfl (by decide)⟩

/-- C9, refuted as stated: for the burst with `arrival_time = -2147483648`
completed at the clock reading 0 the subtraction overflows `int` (it wraps on
two's complement machines): the stored `turnaround_time` is -2147483648,
while `finish_time - arrival_time` is 2147483648. -/
theorem turnaround_overflow :
    ∃ st st', read_input_file (config 1 'S' "RM" "RR") initialize_simulation
        [(0, 100, -2147483648)] = some st ∧
      processor_iteration (config 1 'S' "RM" "RR") 0 0 st = some st' ∧
      st'.finished_bursts.tail = some 0 ∧
      ∃ b, st'.heap[0]? = some b ∧ b.finish_time = 0 ∧ b.arrival_time = -2147483648 ∧
        b.turnaround_time = -2147483648 ∧
        b.turnaround_time ≠ b.finish_time - b.arrival_time :=
  ⟨_, _, rfl, rfl, by decide, _, rfl, by decide, by decide, by decide, by decide⟩

/-! ## Conservation under execution (claim C10) -/

/-- One defined worker iteration on a well-formed state: the state stays well
formed, the cells held by the queues and the finished sequence together are
the same, and the finished sequence is extended at its end, if at all. -/
theorem processor_iteration_abs {cfg : Config} {c : Nat} {elapsed : Int} {st st' : State}
    {qs : List (List Nat)} {fin : List Nat} (habs : Abs st qs fin)
    (hrun : processor_iteration cfg c elapsed st = some st') :
    ∃ qs' fin', Abs st' qs' fin' ∧ (qs'.flatten ++ fin').Perm (qs.flatten ++ fin) ∧
      fin <+: fin' := by
  by_cases hc : c < MAX_PROCESSORS
  · rcases processor_iteration_cases cfg habs hc elapsed with
      h | ⟨l1, x, l2, st2, hl, h, habs2, _⟩ | h
    · rw [h] at hrun
      cases hrun
      exact ⟨qs, fin, habs, List.Perm.refl _, List.prefix_refl _⟩
    · rw [h] at hrun
      cases hrun
      refine ⟨_, _, habs2, ?_, List.prefix_append _ _⟩
      obtain ⟨R, hp1, hp2⟩ := flatten_set_perm qs c (by rw [habs.2.1]; exact hc)
      have hp3 := hp2 (l1 ++ l2)
      rw [hl] at hp1
      rw [List.perm_iff_count] at hp1 hp3 ⊢
      intro a
      have e1 := hp1 a
      have e3 := hp3 a
      simp only [List.count_append, List.count_cons, List.count_nil] at e1 e3 ⊢
      omega
    · rw [h] at hrun
      cases hrun
  · exfalso
    have hw : worker_queue st c = none := by
      unfold worker_queue
      exact List.getElem?_eq_none (by rw [habs.1]; omega)
    simp [processor_iteration, hw] at hrun

theorem reachable_abs {cfg : Config} {st0 st : State} {qs0 : List (List Nat)}
    {fin0 : List Nat} (habs : Abs st0 qs0 fin0) (hr : Reachable cfg st0 st) :
    ∃ qs fin, Abs st qs fin ∧ (qs.flatten ++ fin).Perm (qs0.flatten ++ fin0) ∧
      fin0 <+: fin := by
  induction hr with
  | refl => exact ⟨qs0, fin0, habs, List.Perm.refl _, List.prefix_refl _⟩
  | step c e _ _ hrun ih =>
    obtain ⟨qs1, fin1, habs1, hp1, hpre1⟩ := ih
    obtain ⟨qs2, fin2, habs2, hp2, hpre2⟩ := processor_iteration_abs habs1 hrun
    exact ⟨qs2, fin2, habs2, hp2.trans hp1, hpre1.trans hpre2⟩

/-- C10: execution neither loses nor duplicates bursts.  Let `st0` be the
state left by a defined run of the loading loop, `s1` a state reached from
it by worker iterations and `s2` a state reached from `s1`.  All three are
well formed; in `s1` and in `s2` the cells held by the queues and the
finished sequence together are exactly the cells that loading had placed in
the queues, none occurring twice (so each is in one queue or in the finished
sequence, never both); the finished sequence of `s2` extends that of `s1`
(a finished burst stays finished and is not selected again); and under a
recognised assignment configuration the cells placed by loading are all the
loaded bursts `0 .. k-1`. -/
theorem bursts_neither_lost_nor_duplicated (cfg : Config)
    (records : List (Int × Int × Int)) {st0 s1 s2 : State}
    (hload : read_input_file cfg initialize_simulation records = some st0)
    (h1 : Reachable cfg st0 s1) (h2 : Reachable cfg s1 s2) :
    ∃ qs0 qs1 fin1 qs2 fin2, Abs st0 qs0 [] ∧ Abs s1 qs1 fin1 ∧ Abs s2 qs2 fin2 ∧
      (qs1.flatten ++ fin1).Nodup ∧ (qs2.flatten ++ fin2).Nodup ∧
      (∀ a, a ∈ qs1.flatten ++ fin1 ↔ a ∈ qs0.flatten) ∧
      (∀ a, a ∈ qs2.flatten ++ fin2 ↔ a ∈ qs0.flatten) ∧
      fin1 <+: fin2 ∧
      (Recognised cfg → ∀ a, a ∈ qs0.flatten ↔ a < records.length) := by
  obtain ⟨qs0, habs0, _, hperm⟩ := read_input_file_abs records abs_initialize hload
  obtain ⟨qs1, fin1, habs1, hp1, _⟩ := reachable_abs habs0 h1
  obtain ⟨qs2, fin2, habs2, hp2, hpre⟩ := reachable_abs habs1 h2
  refine ⟨qs0, qs1, fin1, qs2, fin2, habs0, habs1, habs2, abs_nodup habs1, abs_nodup habs2,
    fun a => ?_, fun a => ?_, hpre, fun hrec a => ?_⟩
  · rw [hp1.mem_iff, List.append_nil]
  · rw [hp2.mem_iff, hp1.mem_iff, List.append_nil]
  · have hp := hperm hrec
    have h0 : (List.replicate MAX_PROCESSORS ([] : List Nat)).flatten = [] := by decide
    rw [h0] at hp
    rw [hp.mem_iff]
    simp [initialize_simulation]

theorem bursts_neither_lost_nor_duplicated_witness :
    ∃ st0 s1 s2,
      read_input_file (config 1 'S' "RM" "SJF") initialize_simulation
        [(0, 300, 0), (1, 100, 0), (2, 200, 0)] = some st0 ∧
      Reachable (config 1 'S' "RM" "SJF") st0 s1 ∧
      Reachable (config 1 'S' "RM" "SJF") s1 s2 ∧
      s1.finished_bursts = { head := some 1, tail := some 1 } ∧
      s2.finished_bursts = { head := some 1, tail := some 2 } ∧
      ∃ qs0 qs1 fin1 qs2 fin2, Abs st0 qs0 [] ∧ Abs s1 qs1 fin1 ∧ Abs s2 qs2 fin2 ∧
        (qs1.flatten ++ fin1).Nodup ∧ (qs2.flatten ++ fin2).Nodup ∧
        (∀ a, a ∈ qs1.flatten ++ fin1 ↔ a ∈ qs0.flatten) ∧
        (∀ a, a ∈ qs2.flatten ++ fin2 ↔ a ∈ qs0.flatten) ∧
        fin1 <+: fin2 ∧
        (Recognised (config 1 'S' "RM" "SJF") → ∀ a, a ∈ qs0.flatten ↔
          a < [((0 : Int), (300 : Int), (0 : Int)), (1, 100, 0), (2, 200, 0)].length) :=
  ⟨_, _, _, rfl, Reachable.step 0 1 Reachable.refl (by decide) rfl,
    Reachable.step 0 2 Reachable.refl (by decide) rfl, by decide, by decide,
    bursts_neither_lost_nor_duplicated (config 1 'S' "RM" "SJF")
      [(0, 300, 0), (1, 100, 0), (2, 200, 0)] rfl
      (Reachable.step 0 1 Reachable.refl (by decide) rfl)
      (Reachable.step 0 2 Reachable.refl (by decide) rfl)⟩

/-! ## Draining a queue by `find_shortest_job` -/

theorem find_shortest_job_remaining {h h' : Heap} {q q' : Queue} {p : Ptr}
    (he : find_shortest_job h q = some (p, h', q')) :
    remaining_time_of h' = remaining_time_of h := by
  funext a
  have := (find_shortest_job_effect he).2 Burst.remaining_time (fun _ _ => rfl) a
  unfold remaining_time_of
  cases h1 : h'[a]? <;> cases h2 : h[a]? <;> simp [h1, h2] at this ⊢
  exact this

/-- On a well-formed queue whose remaining times are all below `INT_MAX`, as
many calls of `find_shortest_job` as the queue has cells are defined and
return every cell once, in non-decreasing order of remaining time, the cells
of equal remaining time in their order in the queue: the stable sort of the
queue by remaining time. -/
theorem find_shortest_all_sorted :
    ∀ (n : Nat) {h : Heap} {q : Queue} {l : List Nat}, IsQueue h q l → l.length = n →
      (∀ y ∈ l, remaining_time_of h y < INT_MAX) →
      ∃ R : List Nat, find_shortest_all n h q = some (R.map some) ∧ R.Perm l ∧
        R.Pairwise (fun a b => remaining_time_of h a ≤ remaining_time_of h b) ∧
        ∀ v : Int, R.filter (fun a => decide (remaining_time_of h a = v)) =
          l.filter (fun a => decide (remaining_time_of h a = v))
  | 0, h, q, l, _, hn, _ => by
    have hl : l = [] := List.length_eq_zero.1 hn
    subst hl
    exact ⟨[], rfl, List.Perm.refl _, List.Pairwise.nil, fun _ => rfl⟩
  | n + 1, h, q, l, hq, hn, hall => by
    have hex : ∃ y ∈ l, remaining_time_of h y < INT_MAX := by
      cases l with
      | nil => simp at hn
      | cons y l => exact ⟨y, List.mem_cons_self _ _, hall y (List.mem_cons_self _ _)⟩
    obtain ⟨l1, x, l2, h', q', hl, hf, hq', hlt, hle, _⟩ := find_shortest_job_spec hq hex
    subst hl
    have hrt := find_shortest_job_remaining hf
    have hn' : (l1 ++ l2).length = n := by
      simp only [List.length_append, List.length_cons] at hn ⊢
      omega
    have hall' : ∀ y ∈ l1 ++ l2, remaining_time_of h' y < INT_MAX := by
      intro y hy
      rw [hrt]
      refine hall y ?_
      rcases List.mem_append.1 hy with hy | hy
      · exact List.mem_append_left _ hy
      · exact List.mem_append_right _ (List.mem_cons_of_mem _ hy)
    obtain ⟨R, hrun, hperm, hsorted, hstable⟩ := find_shortest_all_sorted n hq' hn' hall'
    rw [hrt] at hsorted hstable
    refine ⟨x :: R, ?_, ?_, ?_, fun v => ?_⟩
    · simp only [find_shortest_all, hf, Option.some_bind, hrun, Option.map_some', List.map_cons]
    · exact (List.Perm.cons x hperm).trans List.perm_middle.symm
    · refine List.pairwise_cons.2 ⟨fun b hb => ?_, hsorted⟩
      rcases List.mem_append.1 (hperm.mem_iff.1 hb) with hb | hb
      · exact le_of_lt (hlt b hb)
      · exact hle b hb
    · have h1 : l1.filter (fun a => decide (remaining_time_of h a = remaining_time_of h x))
          = [] := by
        refine List.filter_eq_nil_iff.2 fun a ha => ?_
        have := hlt a ha
        simp only [decide_eq_true_eq]
        omega
      by_cases hv : remaining_time_of h x = v
      · subst hv
        simp only [List.filter_cons, List.filter_append, decide_True, if_true, hstable, h1,
          List.nil_append]
      · simp only [List.filter_cons, List.filter_append, hv, decide_False, hstable]
        simp

/-! ## The finished sequence and the completed counter -/

/-- One defined worker iteration on a well-formed state either leaves the
state as it is, or moves one cell `x` of the worker's queue to the end of the
finished sequence and adds one to `completed_processes`. -/
theorem processor_iteration_step {cfg : Config} {c : Nat} {elapsed : Int} {st st' : State}
    {qs : List (List Nat)} {fin : List Nat} (habs : Abs st qs fin)
    (hrun : processor_iteration cfg c elapsed st = some st') :
    st' = st ∨
    (∃ l1 x l2, qs.getD c [] = l1 ++ x :: l2 ∧
      Abs st' (qs.set c (l1 ++ l2)) (fin ++ [x]) ∧
      st'.completed_processes = st.completed_processes + 1) := by
  by_cases hc : c < MAX_PROCESSORS
  · rcases processor_iteration_cases cfg habs hc elapsed with
      h | ⟨l1, x, l2, st2, hl, h, habs2, hcnt⟩ | h
    · rw [h] at hrun
      cases hrun
      exact Or.inl rfl
    · rw [h] at hrun
      cases hrun
      exact Or.inr ⟨l1, x, l2, hl, habs2, hcnt⟩
    · rw [h] at hrun
      cases hrun
  · exfalso
    have hw : worker_queue st c = none := by
      unfold worker_queue
      exact List.getElem?_eq_none (by rw [habs.1]; omega)
    simp [processor_iteration, hw] at hrun

theorem load_burst_frame {cfg : Config} {st st' : State} {pid burst_length arrival_time : Int}
    (hl : load_burst cfg st pid burst_length arrival_time = some st') :
    st'.completed_processes = st.completed_processes ∧
      st'.finished_bursts = st.finished_bursts := by
  have hat : ∀ {t : Int} {h : Heap} {b : Nat} {s : State}, enqueue_at st h t b = some s →
      s.completed_processes = st.completed_processes ∧
        s.finished_bursts = st.finished_bursts := by
    intro t h b s he
    unfold enqueue_at at he
    cases hq : index? st.mutex_queues t with
    | none => simp [hq] at he
    | some q =>
      simp only [hq, Option.map_eq_some'] at he
      obtain ⟨r, _, rfl⟩ := he
      exact ⟨rfl, rfl⟩
  unfold load_burst at hl
  by_cases hS : cfg.sap = 'S'
  · rw [if_pos hS] at hl
    exact hat hl
  · by_cases hM : cfg.sap = 'M'
    · rw [if_neg hS, if_pos hM, Option.bind_eq_some] at hl
      obtain ⟨t, _, he⟩ := hl
      exact hat he
    · rw [if_neg hS, if_neg hM, Option.some.injEq] at hl
      subst hl
      exact ⟨rfl, rfl⟩

theorem read_input_file_frame {cfg : Config} :
    ∀ (records : List (Int × Int × Int)) {st st' : State},
      read_input_file cfg st records = some st' →
      st'.completed_processes = st.completed_processes ∧
        st'.finished_bursts = st.finished_bursts
  | [], st, st', hl => by
    simp only [read_input_file, Option.some.injEq] at hl
    subst hl
    exact ⟨rfl, rfl⟩
  | r :: rest, st, st', hl => by
    unfold read_input_file at hl
    cases h1 : load_burst cfg st r.1 r.2.1 r.2.2 with
    | none => simp [h1] at hl
    | some st1 =>
      simp only [h1] at hl
      obtain ⟨e1, e2⟩ := load_burst_frame h1
      obtain ⟨e3, e4⟩ := read_input_file_frame rest hl
      exact ⟨e3.trans e1, e4.trans e2⟩

/-- Along worker iterations the counter grows by as much as the finished
sequence, which is only extended at its end. -/
theorem reachable_counter {cfg : Config} {st0 st : State} {qs0 : List (List Nat)}
    {fin0 : List Nat} (habs : Abs st0 qs0 fin0) (hr : Reachable cfg st0 st) :
    ∃ qs fin, Abs st qs fin ∧ fin0 <+: fin ∧
      st.completed_processes - st0.completed_processes =
        (fin.length : Int) - (fin0.length : Int) := by
  induction hr with
  | refl => exact ⟨qs0, fin0, habs, List.prefix_refl _, by omega⟩
  | step c e _ _ hrun ih =>
    obtain ⟨qs1, fin1, habs1, hpre1, hcnt1⟩ := ih
    rcases processor_iteration_step habs1 hrun with h | ⟨l1, x, l2, _, habs2, hcnt2⟩
    · subst h
      exact ⟨qs1, fin1, habs1, hpre1, hcnt1⟩
    · refine ⟨_, _, habs2, hpre1.trans (List.prefix_append _ _), ?_⟩
      rw [hcnt2, List.length_append, List.length_singleton]
      push_cast
      omega

/-! ## The counter and the finished sequence (claims C11, C17) -/

/-- C11: from a state that loading the records produced out of
`initialize_simulation` (empty finished sequence, counter 0), in every state
`s1` reached by worker iterations taken one at a time the finished list is a
well-formed queue whose length, as `queue_length` computes it, equals
`completed_processes` (and is at most the number of allocated bursts), and in
every state `s2` reached from `s1` the counter is at least what it was. -/
theorem counter_matches_finished (cfg : Config) (records : List (Int × Int × Int))
    (st0 s1 s2 : State)
    (hload : read_input_file cfg initialize_simulation records = some st0)
    (h1 : Reachable cfg st0 s1) (h2 : Reachable cfg s1 s2) :
    (∃ fin, IsQueue s1.heap s1.finished_bursts fin ∧
      queue_length s1.heap s1.finished_bursts = some fin.length ∧
      s1.completed_processes = fin.length ∧ fin.length ≤ s1.heap.length) ∧
    s1.completed_processes ≤ s2.completed_processes := by
  obtain ⟨qs0, habs0, _, _⟩ := read_input_file_abs records abs_initialize hload
  have hc0 : st0.completed_processes = 0 := (read_input_file_frame records hload).1
  obtain ⟨qs1, fin1, habs1, _, hc1⟩ := reachable_counter habs0 h1
  obtain ⟨qs2, fin2, _, hpre, hc2⟩ := reachable_counter habs1 h2
  have hle := hpre.length_le
  rw [hc0, List.length_nil] at hc1
  refine ⟨⟨fin1, abs_finished habs1, queue_length_spec (abs_finished habs1), by omega,
    chain_length_le (abs_finished habs1).1⟩, by omega⟩

theorem counter_matches_finished_witness :
    ∃ st0 s1 s2,
      read_input_file (config 1 'S' "RM" "RR") initialize_simulation
        [(0, 100, 0), (1, 50, 0)] = some st0 ∧
      Reachable (config 1 'S' "RM" "RR") st0 s1 ∧
      Reachable (config 1 'S' "RM" "RR") s1 s2 ∧
      s1.completed_processes = 1 ∧ s2.completed_processes = 2 ∧
      (∃ fin, IsQueue s1.heap s1.finished_bursts fin ∧
        queue_length s1.heap s1.finished_bursts = some fin.length ∧
        s1.completed_processes = fin.length ∧ fin.length ≤ s1.heap.length) ∧
      s1.completed_processes ≤ s2.completed_processes :=
  ⟨_, _, _, rfl, Reachable.step 0 1 Reachable.refl (by decide) rfl,
    Reachable.step 0 2 Reachable.refl (by decide) rfl, by decide, by decide,
    counter_matches_finished (config 1 'S' "RM" "RR") [(0, 100, 0), (1, 50, 0)] _ _ _ rfl
      (Reachable.step 0 1 Reachable.refl (by decide) rfl)
      (Reachable.step 0 2 Reachable.refl (by decide) rfl)⟩

/-- C17: on every well-formed state with finished sequence `fin`, a worker
iteration that completes a burst (it counts one more completed process) took
a cell `b` out of the worker's queue, and the finished sequence afterwards is
`fin ++ [b]`: the earlier entries stand in their order and `b` is the new
tail. -/
theorem finished_append_only (cfg : Config) (c : Nat) (elapsed : Int) (st st' : State)
    (qs : List (List Nat)) (fin : List Nat) (habs : Abs st qs fin)
    (hrun : processor_iteration cfg c elapsed st = some st')
    (hdone : st'.completed_processes = st.completed_processes + 1) :
    ∃ b qs', b ∈ qs.getD c [] ∧ st'.finished_bursts.tail = some b ∧
      Abs st' qs' (fin ++ [b]) ∧
      queue_length st'.heap st'.finished_bursts = some (fin.length + 1) := by
  rcases processor_iteration_step habs hrun with h | ⟨l1, x, l2, hl, habs2, _⟩
  · rw [h] at hdone
    omega
  · have hq := abs_finished habs2
    refine ⟨x, _, by rw [hl]; simp, ?_, habs2, ?_⟩
    · rw [hq.2]
      simp
    · rw [queue_length_spec hq]
      simp

theorem finished_append_only_witness :
    ∃ st', processor_iteration (config 2 'M' "RM" "SJF") 1 7 sample_state = some st' ∧
      ∃ b qs', b ∈ sample_queues.getD 1 [] ∧ st'.finished_bursts.tail = some b ∧
        Abs st' qs' ([] ++ [b]) ∧
        queue_length st'.heap st'.finished_bursts = some (([] : List Nat).length + 1) :=
  ⟨_, rfl, finished_append_only (config 2 'M' "RM" "SJF") 1 7 sample_state _ sample_queues []
    (by decide) rfl (by decide)⟩

/-! ## The empty queue (claim C15) -/

/-- C15: under every algorithm name, so under "FCFS", "RR" and "SJF", a worker
iteration whose queue is empty selects no burst and returns the state as it
was (every queue, the finished sequence and the counter); `dequeue` on that
queue returns no burst and the queue as it was, which is still empty. -/
theorem empty_queue_no_selection (cfg : Config) (c : Nat) (elapsed : Int) (st : State)
    (mq : Queue) (hw : worker_queue st c = some mq) (he : is_queue_empty mq = true) :
    select_burst cfg st.heap mq = some (none, st.heap, mq) ∧
    processor_iteration cfg c elapsed st = some st ∧
    dequeue st.heap mq = some (none, mq) := by
  refine ⟨select_burst_empty cfg st.heap he,
    processor_iteration_none_selected elapsed hw (select_burst_empty cfg st.heap he), ?_⟩
  have hh : mq.head = none := by simpa [is_queue_empty] using he
  simp [dequeue, hh]

theorem empty_queue_no_selection_witness :
    worker_queue sample_state 2 = some empty_queue ∧
    select_burst (config 3 'M' "RM" "SJF") sample_state.heap empty_queue
      = some (none, sample_state.heap, empty_queue) ∧
    processor_iteration (config 3 'M' "RM" "SJF") 2 5 sample_state = some sample_state ∧
    dequeue sample_state.heap empty_queue = some (none, empty_queue) :=
  ⟨rfl, empty_queue_no_selection (config 3 'M' "RM" "SJF") 2 5 sample_state empty_queue rfl rfl⟩

/-! ## The sleep request (claim C18) -/

/-- C18: for a remaining time `r ≥ 0` the request has `tv_sec = r / 1000` and
`tv_nsec = (r mod 1000) * 1000000`, so that `tv_sec * 10^9 + tv_nsec` is
`r * 10^6` nanoseconds and `0 ≤ tv_nsec < 10^9`. -/
theorem sleep_request_exact (r : Int) (h0 : 0 ≤ r) :
    (sleep_request r).1 = r / 1000 ∧ (sleep_request r).2 = r % 1000 * 1000000 ∧
    (sleep_request r).1 * 1000000000 + (sleep_request r).2 = r * 1000000 ∧
    0 ≤ (sleep_request r).2 ∧ (sleep_request r).2 < 1000000000 := by
  have hd : Int.tdiv r 1000 = r / 1000 := Int.tdiv_eq_ediv h0 (by omega)
  have hm : Int.tmod r 1000 = r % 1000 := Int.tmod_eq_emod h0 (by omega)
  unfold sleep_request
  rw [hd, hm]
  dsimp only
  omega

theorem sleep_request_exact_witness :
    (0 : Int) ≤ 2500 ∧ sleep_request 2500 = (2, 500000000) ∧
    ((sleep_request 2500).1 = 2500 / 1000 ∧ (sleep_request 2500).2 = 2500 % 1000 * 1000000 ∧
      (sleep_request 2500).1 * 1000000000 + (sleep_request 2500).2 = 2500 * 1000000 ∧
      0 ≤ (sleep_request 2500).2 ∧ (sleep_request 2500).2 < 1000000000) :=
  ⟨by decide, by decide, sleep_request_exact 2500 (by decide)⟩

/-! ## The command line (claims C12, C13, C14) -/

theorem scan_string_length {width : Nat} {input : List Char} {r : List Char × List Char}
    (h : scan_string width input = some r) : r.1.length ≤ width := by
  unfold scan_string at h
  dsimp only at h
  split at h
  · cases h
  · simp only [Option.some.injEq] at h
    subst h
    simp only [List.length_take]
    omega

/-- The option `-s` is never refused. -/
theorem parse_option_s_defined (cfg : Config) (optarg : String) :
    ∃ cfg', parse_option cfg 's' optarg = some cfg' ∧ cfg'.sap = cfg.sap ∧ cfg'.qs = cfg.qs ∧
      cfg'.n_processors = cfg.n_processors := by
  have h1 : ¬ ('s' = 'n') := by decide
  have h2 : ¬ ('s' = 'a') := by decide
  unfold parse_option
  rw [if_neg h1, if_neg h2, if_pos rfl]
  cases hr : scan_string 3 optarg.toList with
  | none => exact ⟨_, rfl, rfl, rfl, rfl⟩
  | some r =>
    dsimp only
    cases hq : scan_int r.2 with
    | none => exact ⟨_, rfl, rfl, rfl, rfl⟩
    | some q => exact ⟨_, rfl, rfl, rfl, rfl⟩

/-- The option `-a` is never refused. -/
theorem parse_option_a_defined (cfg : Config) (optarg : String) :
    ∃ cfg', parse_option cfg 'a' optarg = some cfg' ∧ cfg'.alg = cfg.alg ∧
      cfg'.n_processors = cfg.n_processors := by
  have h1 : ¬ ('a' = 'n') := by decide
  unfold parse_option
  rw [if_neg h1, if_pos rfl]
  cases hl : optarg.toList with
  | nil => exact ⟨_, rfl, rfl, rfl⟩
  | cons c rest =>
    dsimp only
    cases hr : scan_string 2 rest with
    | none => exact ⟨_, rfl, rfl, rfl⟩
    | some r => exact ⟨_, rfl, rfl, rfl⟩

/-- Whatever the options, the strings stored fit their arrays. -/
theorem parse_option_stored {cfg cfg' : Config} {opt : Char} {optarg : String}
    (hs : cfg.Stored) (h : parse_option cfg opt optarg = some cfg') : cfg'.Stored := by
  unfold parse_option at h
  split at h
  · cases h
    exact hs
  · split at h
    · cases hl : optarg.toList with
      | nil =>
        simp only [hl, Option.some.injEq] at h
        subst h
        exact hs
      | cons c rest =>
        simp only [hl] at h
        cases hr : scan_string 2 rest with
        | none =>
          simp only [hr, Option.some.injEq] at h
          subst h
          exact hs
        | some r =>
          simp only [hr, Option.some.injEq] at h
          subst h
          exact ⟨scan_string_length hr, hs.2⟩
    · split at h
      · cases hr : scan_string 3 optarg.toList with
        | none =>
          simp only [hr, Option.some.injEq] at h
          subst h
          exact hs
        | some r =>
          simp only [hr] at h
          cases hq : scan_int r.2 with
          | none =>
            simp only [hq, Option.some.injEq] at h
            subst h
            exact ⟨hs.1, scan_string_length hr⟩
          | some q =>
            simp only [hq, Option.some.injEq] at h
            subst h
            exact ⟨hs.1, scan_string_length hr⟩
      · split at h
        · cases h
          exact hs
        · cases h

theorem parse_arguments_stored :
    ∀ (opts : List (Char × String)) {cfg cfg' : Config}, cfg.Stored →
      parse_arguments cfg opts = some cfg' → cfg'.Stored
  | [], cfg, cfg', hs, h => by
    simp only [parse_arguments, Option.some.injEq] at h
    subst h
    exact hs
  | o :: rest, cfg, cfg', hs, h => by
    simp only [parse_arguments, Option.bind_eq_some] at h
    obtain ⟨c1, h1, h2⟩ := h
    exact parse_arguments_stored rest (parse_option_stored hs h1) h2

/-- The array `alg` has no room for the name "FCFS". -/
theorem stored_not_fcfs {cfg : Config} (hs : cfg.Stored) : cfg.alg ≠ "FCFS" := by
  intro h
  have h2 := hs.2
  rw [h] at h2
  exact absurd h2 (by decide)

/-- No command line makes `alg` equal to "FCFS". -/
theorem parse_arguments_not_fcfs (opts : List (Char × String)) {cfg : Config}
    (h : parse_arguments default_config opts = some cfg) : cfg.alg ≠ "FCFS" :=
  stored_not_fcfs (parse_arguments_stored opts (by decide) h)

/-- The branch of `processor_thread` under `strcmp(alg, "FCFS") == 0` does
what the branch under "RR" does. -/
theorem select_burst_rr_fcfs {cfg1 cfg2 : Config} (h1 : cfg1.alg = "RR")
    (h2 : cfg2.alg = "FCFS") (h : Heap) (q : Queue) :
    select_burst cfg1 h q = select_burst cfg2 h q := by
  cases he : is_queue_empty q with
  | true => rw [select_burst_empty cfg1 h he, select_burst_empty cfg2 h he]
  | false => rw [select_burst_fifo h he (Or.inl h1), select_burst_fifo h he (Or.inr h2)]

theorem processor_iteration_rr_fcfs {cfg1 cfg2 : Config} (h1 : cfg1.alg = "RR")
    (h2 : cfg2.alg = "FCFS") (c : Nat) (elapsed : Int) (st : State) :
    processor_iteration cfg1 c elapsed st = processor_iteration cfg2 c elapsed st := by
  unfold processor_iteration
  cases worker_queue st c with
  | none => rfl
  | some mq =>
    dsimp only
    rw [select_burst_rr_fcfs h1 h2]

/-- With `sap == 'M'` and a sub-policy other than "RM" and "LM" the loading
loop reads `target_queue` uninitialised. -/
theorem load_burst_uninitialised {cfg : Config} (st : State) (pid burst_length arrival_time : Int)
    (hM : cfg.sap = 'M') (h1 : cfg.qs ≠ "RM") (h2 : cfg.qs ≠ "LM") :
    load_burst cfg st pid burst_length arrival_time = none := by
  have hS : cfg.sap ≠ 'S' := by
    rw [hM]
    decide
  unfold load_burst
  rw [if_neg hS, if_pos hM]
  unfold target_queue
  rw [if_neg h1, if_neg h2]
  rfl

theorem read_input_file_discards {cfg : Config} (hS : cfg.sap ≠ 'S') (hM : cfg.sap ≠ 'M') :
    ∀ (records : List (Int × Int × Int)) (st : State),
      read_input_file cfg st records = some { st with heap :=
        (st.heap ++ records.map (fun r => new_burst r.1 r.2.1 r.2.2)) }
  | [], st => by simp [read_input_file]
  | r :: rest, st => by
    have h1 : load_burst cfg st r.1 r.2.1 r.2.2 =
        some { st with heap := st.heap ++ [new_burst r.1 r.2.1 r.2.2] } := by
      unfold load_burst
      rw [if_neg hS, if_neg hM]
    unfold read_input_file
    rw [h1]
    dsimp only
    rw [read_input_file_discards hS hM rest]
    simp

/-- C12, refuted as stated: the option `-s "XYZ 20"` is accepted and stores
the name "XYZ", which is none of "FCFS", "RR", "SJF"; under it the worker
iteration on the non-empty queue 0 of `sample_state` selects no burst and
leaves the state as it was. -/
theorem unknown_algorithm_accepted :
    parse_arguments default_config [('s', "XYZ 20")]
      = some { default_config with alg := "XYZ" } ∧
    ¬ Config.Known { default_config with alg := "XYZ" } ∧
    worker_queue sample_state 0 = some { head := some 0, tail := some 0 } ∧
    is_queue_empty { head := some 0, tail := some 0 } = false ∧
    select_burst { default_config with alg := "XYZ" } sample_state.heap
      { head := some 0, tail := some 0 }
      = some (none, sample_state.heap, { head := some 0, tail := some 0 }) ∧
    processor_iteration { default_config with alg := "XYZ" } 0 1 sample_state
      = some sample_state := by
  decide

/-- C12, as amended: no algorithm name is refused (the option `-s` is
accepted with every argument), and under a stored name other than "FCFS",
"RR" and "SJF" every worker iteration, on an empty queue or not, selects no
burst and leaves the state as it was. -/
theorem unknown_algorithm_idles (cfg : Config) (c : Nat) (elapsed : Int) (st : State)
    (mq : Queue) (hk : ¬ cfg.Known) (hw : worker_queue st c = some mq) :
    (∀ (cfg0 : Config) (optarg : String), ∃ cfg', parse_option cfg0 's' optarg = some cfg') ∧
    select_burst cfg st.heap mq = some (none, st.heap, mq) ∧
    processor_iteration cfg c elapsed st = some st := by
  have hs : select_burst cfg st.heap mq = some (none, st.heap, mq) :=
    select_burst_other st.heap mq (fun h => hk (Or.inr (Or.inl h)))
      (fun h => hk (Or.inr (Or.inr h))) (fun h => hk (Or.inl h))
  refine ⟨fun cfg0 optarg => ?_, hs, processor_iteration_none_selected elapsed hw hs⟩
  obtain ⟨cfg', h, _⟩ := parse_option_s_defined cfg0 optarg
  exact ⟨cfg', h⟩

theorem unknown_algorithm_idles_witness :
    ¬ Config.Known (config 2 'M' "RM" "EDF") ∧
    worker_queue sample_state 1 = some { head := some 1, tail := some 1 } ∧
    ((∀ (cfg0 : Config) (optarg : String), ∃ cfg', parse_option cfg0 's' optarg = some cfg') ∧
      select_burst (config 2 'M' "RM" "EDF") sample_state.heap { head := some 1, tail := some 1 }
        = some (none, sample_state.heap, { head := some 1, tail := some 1 }) ∧
      processor_iteration (config 2 'M' "RM" "EDF") 1 4 sample_state = some sample_state) :=
  ⟨by decide, rfl,
    unknown_algorithm_idles (config 2 'M' "RM" "EDF") 1 4 sample_state _ (by decide) rfl⟩

/-- C13, refuted as stated: the option `-a "X RM"` is accepted and stores the
policy character `X`; loading a burst under it returns normally, with the
burst allocated in the heap and in no queue: the queues, the finished
sequence and the counter are as before. -/
theorem unknown_policy_accepted :
    parse_arguments default_config [('a', "X RM")] = some { default_config with sap := 'X' } ∧
    load_burst { default_config with sap := 'X' } sample_state 2 10 0 =
      some { sample_state with heap := sample_state.heap ++ [new_burst 2 10 0] } ∧
    Abs { sample_state with heap := sample_state.heap ++ [new_burst 2 10 0] }
      sample_queues [] ∧
    2 ∉ sample_queues.flatten := by
  decide

/-- C13, as amended: no policy character is refused (the option `-a` is
accepted with every argument), and under a character other than `S` and `M`
loading reports nothing: every burst is allocated and then placed in no
queue, the queues, the finished sequence and the counter stay as they were,
and loading goes on to the end of the records. -/
theorem unknown_policy_discards (cfg : Config) (st : State)
    (pid burst_length arrival_time : Int) (records : List (Int × Int × Int))
    (hS : cfg.sap ≠ 'S') (hM : cfg.sap ≠ 'M') :
    (∀ (cfg0 : Config) (optarg : String), ∃ cfg', parse_option cfg0 'a' optarg = some cfg') ∧
    load_burst cfg st pid burst_length arrival_time =
      some { st with heap := st.heap ++ [new_burst pid burst_length arrival_time] } ∧
    read_input_file cfg st records = some { st with heap :=
      (st.heap ++ records.map (fun r => new_burst r.1 r.2.1 r.2.2)) } := by
  refine ⟨fun cfg0 optarg => ?_, ?_, read_input_file_discards hS hM records st⟩
  · obtain ⟨cfg', h, _⟩ := parse_option_a_defined cfg0 optarg
    exact ⟨cfg', h⟩
  · unfold load_burst
    rw [if_neg hS, if_neg hM]

theorem unknown_policy_discards_witness :
    (config 2 'Q' "RM" "RR").sap ≠ 'S' ∧ (config 2 'Q' "RM" "RR").sap ≠ 'M' ∧
    ((∀ (cfg0 : Config) (optarg : String), ∃ cfg', parse_option cfg0 'a' optarg = some cfg') ∧
      load_burst (config 2 'Q' "RM" "RR") initialize_simulation 0 100 0 =
        some { initialize_simulation with
          heap := initialize_simulation.heap ++ [new_burst 0 100 0] } ∧
      read_input_file (config 2 'Q' "RM" "RR") initialize_simulation [(0, 100, 0), (1, 50, 5)] =
        some { initialize_simulation with heap :=
          (initialize_simulation.heap ++ [((0 : Int), (100 : Int), (0 : Int)), (1, 50, 5)].map
            (fun r => new_burst r.1 r.2.1 r.2.2)) }) :=
  ⟨by decide, by decide,
    unknown_policy_discards (config 2 'Q' "RM" "RR") initialize_simulation 0 100 0
      [(0, 100, 0), (1, 50, 5)] (by decide) (by decide)⟩

/-- C14, at its failing input: the option `-s "RR 20"` stores "RR" and the
worker iteration on queue 0 of `sample_state` completes the head burst; the
option `-s "FCFS 20"` stores "FCF", the three characters that `%3s` reads
into `char alg[4]`, the comparison with "FCFS" fails, and the same iteration
selects no burst and leaves the state as it was. -/
theorem fcfs_option_selects_nothing :
    parse_arguments default_config [('s', "RR 20")] = some default_config ∧
    parse_arguments default_config [('s', "FCFS 20")]
      = some { default_config with alg := "FCF" } ∧
    (processor_iteration default_config 0 1 sample_state).map
        (fun st => (st.finished_bursts, st.completed_processes))
      = some ({ head := some 0, tail := some 0 }, 1) ∧
    select_burst default_config sample_state.heap { head := some 0, tail := some 0 }
      = some (some 0, sample_state.heap, empty_queue) ∧
    select_burst { default_config with alg := "FCF" } sample_state.heap
      { head := some 0, tail := some 0 }
      = some (none, sample_state.heap, { head := some 0, tail := some 0 }) ∧
    processor_iteration { default_config with alg := "FCF" } 0 1 sample_state
      = some sample_state := by
  decide

/-! ## Removal by `find_shortest_job` (claim C16) -/

/-- On a well-formed queue in which some remaining time is below `INT_MAX`,
`find_shortest_job` takes one element out and leaves the others as a
well-formed queue in their order, one shorter, empty exactly when the element
was the only one; `enqueue` then puts a further burst behind the last one
left. -/
theorem find_shortest_job_then_enqueue {h : Heap} {q : Queue} {l : List Nat} {b : Nat}
    (hq : IsQueue h q l) (hex : ∃ y ∈ l, remaining_time_of h y < INT_MAX)
    (hb : b < h.length) (hbl : b ∉ l) :
    ∃ l1 x l2 h1 q1 h2 q2, l = l1 ++ x :: l2 ∧
      find_shortest_job h q = some (some x, h1, q1) ∧ IsQueue h1 q1 (l1 ++ l2) ∧
      (l1 ++ l2).length + 1 = l.length ∧
      (is_queue_empty q1 = true ↔ l = [x]) ∧ (q1 = empty_queue ↔ l = [x]) ∧
      enqueue h1 q1 b = some (h2, q2) ∧ IsQueue h2 q2 (l1 ++ l2 ++ [b]) := by
  obtain ⟨l1, x, l2, h1, q1, hl, hf, hq1, _, _, _⟩ := find_shortest_job_spec hq hex
  have hlen := (find_shortest_job_effect hf).1
  have hbl2 : b ∉ l1 ++ l2 := by
    intro hm
    apply hbl
    rw [hl]
    rcases List.mem_append.1 hm with hm | hm
    · exact List.mem_append_left _ hm
    · exact List.mem_append_right _ (List.mem_cons_of_mem _ hm)
  obtain ⟨h2, q2, he, hq2⟩ := enqueue_spec hq1 (by rw [hlen]; exact hb) hbl2
  have hsole : l1 ++ l2 = [] ↔ l = [x] := by
    rw [hl]
    constructor
    · intro h0
      obtain ⟨e1, e2⟩ := List.append_eq_nil.1 h0
      rw [e1, e2]
      rfl
    · intro h0
      cases l1 with
      | nil =>
        simp only [List.nil_append, List.cons.injEq, true_and] at h0
        rw [h0]
        rfl
      | cons a l1 =>
        simp only [List.cons_append, List.cons.injEq] at h0
        exact absurd h0.2 (by simp)
  refine ⟨l1, x, l2, h1, q1, h2, q2, hl, hf, hq1, ?_, ?_, ?_, he, hq2⟩
  · rw [hl]
    simp only [List.length_append, List.length_cons]
    omega
  · rw [is_queue_empty_iff hq1]
    exact hsole
  · rw [← hsole]
    constructor
    · intro h0
      rw [h0] at hq1
      exact (is_queue_empty_iff hq1).1 rfl
    · intro h0
      rw [h0] at hq1
      exact isQueue_nil_iff.1 hq1

/-- C16, at its failing input: on the well-formed, non-empty queue that loading
two bursts of remaining time `INT_MAX = 2147483647` builds, no remaining time
is below the initial `min_remaining_time`, `shortest` stays `NULL` and
`find_shortest_job` dereferences it: no element is selected and no queue is
left (the claim asks for a queue of length one); the defect is the one of
C3. -/
theorem find_shortest_job_removes_none :
    ∃ st, read_input_file (config 1 'S' "RM" "SJF") initialize_simulation
        [(0, 2147483647, 0), (1, 2147483647, 5)] = some st ∧
      worker_queue st 0 = some { head := some 0, tail := some 1 } ∧
      IsQueue st.heap { head := some 0, tail := some 1 } [0, 1] ∧
      is_queue_empty { head := some 0, tail := some 1 } = false ∧
      find_shortest_loop st.heap 3 (some 0) none none none INT_MAX = some (none, none) ∧
      find_shortest_job st.heap { head := some 0, tail := some 1 } = none :=
  ⟨_, rfl, by decide, by decide, by decide, by decide, by decide⟩

/-! ## The least-loaded policy from empty queues (claim C19) -/

end Mps
